import Mathlib

/-!
monkeylang: the bytecode virtual machine (`pkg/vm/vm.go`), the builtin
registry of the evaluator (`pkg/evaluator/builtins.go`) and the parser
(`pkg/parser/parser.go`).

A shallow embedding.  Go values of interface type `object.Object` are
`Option object.Object` (`none` is the nil interface), the Go `int` stack pointer
is an `Int`, `int64` arithmetic is exact arithmetic on `Int` reduced into the
signed 64-bit range, and a Go run-time panic is an explicit result, so that a
call that returns an `error` or an Error value and a call that faults are told
apart.  The loops of the parser, which need not come to an end, carry a bound on
the number of their passes.
-/

namespace object

/-- The run-time values of package `object` that the virtual machine and the
builtins handle.  The payload of `Integer` is a Go `int64`. -/
inductive Object where
  | Integer (Value : Int)
  | Boolean (Value : Bool)
  | Str (Value : String)
  | Null
  | Array (Elements : List Object)
  | Error (Message : String)
  | Other (tag : String)

/-- Modelled from the spec: the method `Type()` of `object.Object` is declared
outside the files at hand; the spec and the tests name the type tags `INTEGER`,
`BOOLEAN`, `STRING`, `NULL`, `ARRAY`.  `Other` stands for an object of any of
the remaining kinds (function, builtin, hash), known by its tag. -/
def Object.typeTag : Object → String
  | .Integer _ => "INTEGER"
  | .Boolean _ => "BOOLEAN"
  | .Str _ => "STRING"
  | .Null => "NULL"
  | .Array _ => "ARRAY"
  | .Error _ => "ERROR"
  | .Other tag => tag

end object

namespace code

/-- Go: `type Opcode byte`. -/
abbrev Opcode := Fin 256

/-- Go: `type Instructions []byte`. -/
abbrev Instructions := List (Fin 256)

/-- The opcode constants of package `code` used by `vm.Run`.  Their numeric
values are declared outside the files at hand, so they are a parameter of the
machine; as constant `case` labels of one Go `switch` they are pairwise
distinct. -/
structure Opcodes where
  OpConstant : Opcode
  OpAdd : Opcode
  OpSub : Opcode
  OpMul : Opcode
  OpDiv : Opcode
  OpPop : Opcode
  distinct : [OpConstant, OpAdd, OpSub, OpMul, OpDiv, OpPop].Nodup

/-- The six opcodes that `Run` decodes. -/
def Opcodes.defined (oc : Opcodes) : List Opcode :=
  [oc.OpConstant, oc.OpAdd, oc.OpSub, oc.OpMul, oc.OpDiv, oc.OpPop]

/-- Modelled from the spec: `code.ReadUint16` is declared outside the files at
hand; the spec describes the operand of `OpConstant` as "a 2-byte big-endian
index", which is the first arm.  What the function does on a slice of fewer
than two bytes is given neither by the files at hand nor by the spec: the
second arm, a fault (`none`), is an assumption, and nothing is stated below
about an `OpConstant` whose operand bytes are cut short. -/
def ReadUint16 (ins : Instructions) : Option Nat :=
  match ins with
  | hi :: lo :: _ => some (hi.val * 256 + lo.val)
  | _ => none

end code

namespace vm

open object code

/-- Go: `const StackSize = 2048`. -/
def StackSize : Nat := 2048

/-- The Go `VM` struct. -/
structure VM where
  constants : List (Option Object)
  instructions : Instructions
  stack : List (Option Object)
  sp : Int

/-- The compiler's `ByteCode` struct, as far as `New` reads it. -/
structure ByteCode where
  Instructions : Instructions
  Constants : List (Option Object)

/-- The run-time panics of Go that the machine can raise. -/
inductive Panic where
  | indexOutOfRange
  | typeAssertion
  | divideByZero
  | nilDereference
  deriving DecidableEq, Repr

/-- The result of calling a method of the machine: it returns a value and
leaves the machine in a state, or it panics (leaving the machine in a state). -/
inductive Res (α : Type) where
  | ok (vm : VM) (val : α)
  | panic (vm : VM) (p : Panic)

/-- How a call of `Run` ends: it returns a Go `error` (`none` is the nil
error), or it panics. -/
inductive RunResult where
  | returned (err : Option String)
  | panicked (p : Panic)
  deriving DecidableEq, Repr

/-- Reduction of an exact integer into the range of Go's `int64`
(two's-complement wrap-around). -/
def wrap64 (x : Int) : Int := (x + 2 ^ 63) % 2 ^ 64 - 2 ^ 63

/-- Go slice indexing `s[i]` with an `int` index: `none` is the
index-out-of-range panic. -/
def index {α : Type} (s : List α) (i : Int) : Option α :=
  if 0 ≤ i then s[i.toNat]? else none

/-- Go: `func New(bytecode *compiler.ByteCode) *VM`. -/
def New (bytecode : ByteCode) : VM :=
  { constants := bytecode.Constants
    instructions := bytecode.Instructions
    stack := List.replicate StackSize none
    sp := 0 }

/-- Go: `func (vm *VM) StackTop() object.Object`. -/
def StackTop (vm : VM) : Res (Option Object) :=
  if vm.sp = 0 then .ok vm none
  else
    match index vm.stack (vm.sp - 1) with
    | none => .panic vm .indexOutOfRange
    | some obj => .ok vm obj

/-- Go: `func (vm *VM) lastPoppedStackElem() object.Object`. -/
def lastPoppedStackElem (vm : VM) : Res (Option Object) :=
  match index vm.stack vm.sp with
  | none => .panic vm .indexOutOfRange
  | some obj => .ok vm obj

/-- Go: `func (vm *VM) pop() object.Object`. -/
def pop (vm : VM) : Res (Option Object) :=
  if vm.sp = 0 then .ok vm none
  else
    match index vm.stack (vm.sp - 1) with
    | none => .panic vm .indexOutOfRange
    | some obj => .ok { vm with sp := vm.sp - 1 } obj

/-- Go: `func (vm *VM) push(obj object.Object) error`.  The value returned is
the Go `error`. -/
def push (vm : VM) (obj : Option Object) : Res (Option String) :=
  if vm.sp ≥ (StackSize : Int) then .ok vm (some "stackover flow")
  else if 0 ≤ vm.sp ∧ vm.sp.toNat < vm.stack.length then
    .ok { vm with stack := vm.stack.set vm.sp.toNat obj, sp := vm.sp + 1 } none
  else .panic vm .indexOutOfRange

/-- The type assertion `x.(*object.Integer)` followed by `.Value`: `none` is
the failed assertion (a panic). -/
def asInteger : Option Object → Option Int
  | some (.Integer v) => some v
  | _ => none

/-- The inner `switch op` of the arithmetic case of `Run`: the `int64` result,
or the way `Run` ends there. -/
def arith (oc : Opcodes) (op : Opcode) (left right : Option Object) : Except RunResult Int :=
  if op = oc.OpAdd then
    match asInteger left, asInteger right with
    | some l, some r => .ok (wrap64 (l + r))
    | _, _ => .error (.panicked .typeAssertion)
  else if op = oc.OpSub then
    match asInteger left, asInteger right with
    | some l, some r => .ok (wrap64 (l - r))
    | _, _ => .error (.panicked .typeAssertion)
  else if op = oc.OpMul then
    match asInteger left, asInteger right with
    | some l, some r => .ok (wrap64 (l * r))
    | _, _ => .error (.panicked .typeAssertion)
  else if op = oc.OpDiv then
    match asInteger left, asInteger right with
    | some l, some r =>
      if r = 0 then .error (.panicked .divideByZero) else .ok (wrap64 (Int.tdiv l r))
    | _, _ => .error (.panicked .typeAssertion)
  else .error (.returned (some ("unknown integer operator: " ++ toString op.val)))

/-- What one pass through the body of the loop of `Run` does: it falls through
to the `ip++` of the loop with the machine and the current `ip`, or `Run`
ends. -/
inductive Step where
  | next (vm : VM) (ip : Nat)
  | done (vm : VM) (r : RunResult)

/-- The body of the loop of `Run` (the `switch op`), for the opcode `op` fetched
at position `ip`. -/
def execute (oc : Opcodes) (vm : VM) (ip : Nat) (op : Opcode) : Step :=
  if op = oc.OpConstant then
    match ReadUint16 (vm.instructions.drop (ip + 1)) with
    | none => .done vm (.panicked .indexOutOfRange)
    | some idx =>
      match vm.constants[idx]? with
      | none => .done vm (.panicked .indexOutOfRange)
      | some c =>
        match push vm c with
        | .panic vm1 p => .done vm1 (.panicked p)
        | .ok vm1 (some err) => .done vm1 (.returned (some err))
        | .ok vm1 none => .next vm1 (ip + 2)
  else if op = oc.OpAdd ∨ op = oc.OpSub ∨ op = oc.OpMul ∨ op = oc.OpDiv then
    match pop vm with
    | .panic vm1 p => .done vm1 (.panicked p)
    | .ok vm1 right =>
      match pop vm1 with
      | .panic vm2 p => .done vm2 (.panicked p)
      | .ok vm2 left =>
        match arith oc op left right with
        | .error r => .done vm2 r
        | .ok result =>
          match push vm2 (some (.Integer result)) with
          | .panic vm3 p => .done vm3 (.panicked p)
          | .ok vm3 (some err) => .done vm3 (.returned (some err))
          | .ok vm3 none => .next vm3 ip
  else if op = oc.OpPop then
    match pop vm with
    | .panic vm1 p => .done vm1 (.panicked p)
    | .ok vm1 _ => .next vm1 ip
  else .next vm ip

/-- The loop of `Run`, entered at position `ip`: the Go loop
`for ; ip < len(vm.instructions); ip++ { ... }` followed by `return nil`.  It
terminates because the body never lowers `ip` and never changes the
instruction stream. -/
def runLoop (oc : Opcodes) (vm : VM) (ip : Nat) : VM × RunResult :=
  if h : ip < vm.instructions.length then
    match hs : execute oc vm ip vm.instructions[ip] with
    | .next vm1 ip1 => runLoop oc vm1 (ip1 + 1)
    | .done vm1 r => (vm1, r)
  else (vm, .returned none)
termination_by vm.instructions.length - ip
decreasing_by
  have hpush : ∀ (a b : VM) (o : Option Object) (e : Option String),
      push a o = .ok b e → b.instructions = a.instructions := by
    intro a b o e hab
    unfold push at hab
    split at hab
    · cases hab; rfl
    · split at hab
      · cases hab; rfl
      · cases hab
  have hpop : ∀ (a b : VM) (o : Option Object),
      pop a = .ok b o → b.instructions = a.instructions := by
    intro a b o hab
    unfold pop at hab
    split at hab
    · cases hab; rfl
    · split at hab
      · cases hab
      · cases hab; rfl
  have key : vm1.instructions = vm.instructions ∧ ip ≤ ip1 := by
    unfold execute at hs
    split at hs
    · split at hs
      · cases hs
      · split at hs
        · cases hs
        · split at hs
          · cases hs
          · cases hs
          · rename_i hp
            cases hs
            exact ⟨hpush _ _ _ _ hp, by omega⟩
    · split at hs
      · split at hs
        · cases hs
        · rename_i hp1
          split at hs
          · cases hs
          · rename_i hp2
            split at hs
            · cases hs
            · split at hs
              · cases hs
              · cases hs
              · rename_i hp3
                cases hs
                exact ⟨((hpush _ _ _ _ hp3).trans (hpop _ _ _ hp2)).trans (hpop _ _ _ hp1),
                  Nat.le_refl _⟩
      · split at hs
        · split at hs
          · cases hs
          · rename_i hp
            cases hs
            exact ⟨hpop _ _ _ hp, Nat.le_refl _⟩
        · cases hs
          exact ⟨rfl, Nat.le_refl _⟩
  have hlen := congrArg List.length key.1
  omega

/-- Go: `func (vm *VM) Run() error`. -/
def Run (oc : Opcodes) (vm : VM) : VM × RunResult :=
  runLoop oc vm 0

/-- The machine a method call leaves behind. -/
def Res.vm {α : Type} : Res α → VM
  | .ok vm _ => vm
  | .panic vm _ => vm

/-- The machine one pass through the loop body leaves behind. -/
def Step.vm : Step → VM
  | .next vm _ => vm
  | .done vm _ => vm

/-- The stack discipline: the stack array has `StackSize` slots and the stack
pointer lies between `0` and `StackSize`. -/
def WF (vm : VM) : Prop :=
  vm.stack.length = StackSize ∧ 0 ≤ vm.sp ∧ vm.sp ≤ (StackSize : Int)

instance (vm : VM) : Decidable (WF vm) := by
  unfold WF; infer_instance

/-- The machine for the program `bytecode` whose stack array holds the live
slots `used` (bottom first) followed by the slots `free` at and above the stack
pointer. -/
def stackState (bytecode : ByteCode) (used free : List (Option Object)) : VM :=
  { constants := bytecode.Constants
    instructions := bytecode.Instructions
    stack := used ++ free
    sp := (used.length : Int) }

/-- The program of the spec's example: `OpConstant 0, OpConstant 1, OpAdd,
OpPop`. -/
def addProgram (oc : Opcodes) : Instructions :=
  [oc.OpConstant, 0, 0, oc.OpConstant, 0, 1, oc.OpAdd, oc.OpPop]

/-- The instruction stream that consists of one `OpConstant` instruction for
each pair of operand bytes in `ops`. -/
def constantProgram (oc : Opcodes) : List (Fin 256 × Fin 256) → Instructions
  | [] => []
  | p :: ps => oc.OpConstant :: p.1 :: p.2 :: constantProgram oc ps

/-- A machine with an empty program whose stack holds `Integer l` below
`Integer r`. -/
def twoIntegers (l r : Int) : VM :=
  stackState ⟨[], []⟩ [some (.Integer l), some (.Integer r)]
    (List.replicate (StackSize - 2) none)

/-- The constant that an `OpConstant` with the operand bytes `p` pushes (nil
when the pool has no such index). -/
def constantAt (constants : List (Option Object)) (p : Fin 256 × Fin 256) : Option Object :=
  (constants[p.1.val * 256 + p.2.val]?).getD none

/-- A numbering of the opcodes, for evaluating the machine on concrete
programs. -/
def sampleOpcodes : Opcodes :=
  { OpConstant := 0, OpAdd := 1, OpSub := 2, OpMul := 3, OpDiv := 4, OpPop := 5
    distinct := by decide }

/-- The machine states that `New`, `push`, `pop`, one pass through the loop
body of `Run`, and `Run` itself can produce. -/
inductive Reachable (oc : Opcodes) : VM → Prop where
  | ofNew (bytecode : ByteCode) : Reachable oc (New bytecode)
  | ofPush (m : VM) (obj : Option Object) : Reachable oc m → Reachable oc (push m obj).vm
  | ofPop (m : VM) : Reachable oc m → Reachable oc (pop m).vm
  | ofExecute (m : VM) (ip : Nat) (op : Opcode) :
      Reachable oc m → Reachable oc (execute oc m ip op).vm
  | ofRun (m : VM) : Reachable oc m → Reachable oc (Run oc m).1

/-- The calls `push(x1); ...; push(xk)` in this order: the machine they leave
behind, or `none` when one of them returns an error or panics. -/
def pushAll (vm : VM) : List (Option Object) → Option VM
  | [] => some vm
  | x :: xs =>
    match push vm x with
    | .ok vm1 none => pushAll vm1 xs
    | _ => none

/-- The call `pop()` made `k` times: the machine left behind and the objects
returned, first returned first, or `none` when one of the calls panics. -/
def popN (vm : VM) : Nat → Option (VM × List (Option Object))
  | 0 => some (vm, [])
  | k + 1 =>
    match pop vm with
    | .panic _ _ => none
    | .ok vm1 obj =>
      match popN vm1 k with
      | none => none
      | some (vm2, objs) => some (vm2, obj :: objs)

/-- The loop of `Run` entered at `ip`, with a bound on the number of passes
through its body: `none` when `fuel` passes do not bring the loop to its end. -/
def runLoopFuel (oc : Opcodes) : Nat → VM → Nat → Option (VM × RunResult)
  | 0, vm, ip => if ip < vm.instructions.length then none else some (vm, .returned none)
  | fuel + 1, vm, ip =>
    if h : ip < vm.instructions.length then
      match execute oc vm ip vm.instructions[ip] with
      | .next vm1 ip1 => runLoopFuel oc fuel vm1 (ip1 + 1)
      | .done vm1 r => some (vm1, r)
    else some (vm, .returned none)

end vm

namespace evaluator

open object

/-- What a call of a builtin gives: the `object.Object` returned (`none` is the
nil interface), or a Go run-time panic. -/
abbrev Result := Except vm.Panic (Option Object)

/-- Modelled from the spec: `newError` is declared outside the files at hand;
the tests read its result as an `*object.Error` whose `Message` is the formatted
text. -/
def newError (message : String) : Option Object := some (.Error message)

/-- Modelled from the spec: the variable `NULL` is declared outside the files at
hand; it is the one `Null` value. -/
def NULL : Option Object := some .Null

/-- The function of the entry `"len"` of `builtin`. -/
def len (args : List (Option Object)) : Result :=
  if args.length ≠ 1 then
    .ok (newError ("wrong number of arguments. got=" ++ toString args.length ++ ", want=1"))
  else
    match args[0]? with
    | none => .error .indexOutOfRange
    | some (some (Object.Array elements)) => .ok (some (.Integer (elements.length : Int)))
    | some (some (Object.Str value)) => .ok (some (.Integer (value.utf8ByteSize : Int)))
    | some (some arg) =>
      .ok (newError ("argument to `len` not supported. got=" ++ arg.typeTag))
    | some none => .error .nilDereference

/-- The function of the entry `"first"` of `builtin`. -/
def first (args : List (Option Object)) : Result :=
  if args.length ≠ 1 then
    .ok (newError ("wrong number of arguments. got=" ++ toString args.length ++ ", want=1"))
  else
    match args[0]? with
    | none => .error .indexOutOfRange
    | some (some (Object.Array elements)) =>
      if elements.length = 0 then .ok NULL
      else
        match elements[0]? with
        | none => .error .indexOutOfRange
        | some element => .ok (some element)
    | some (some arg) =>
      .ok (newError ("'first' only accepts an array as an argument. got=" ++ arg.typeTag))
    | some none => .error .nilDereference

/-- The function of the entry `"last"` of `builtin`. -/
def last (args : List (Option Object)) : Result :=
  if args.length ≠ 1 then
    .ok (newError ("wrong number of arguments. got=" ++ toString args.length ++ ", want=1"))
  else
    match args[0]? with
    | none => .error .indexOutOfRange
    | some (some (Object.Array elements)) =>
      if elements.length = 0 then .ok NULL
      else
        match elements[elements.length - 1]? with
        | none => .error .indexOutOfRange
        | some element => .ok (some element)
    | some (some arg) =>
      .ok (newError ("'last' only accepts an array as an argument. got=" ++ arg.typeTag))
    | some none => .error .nilDereference

/-- Go: `object.Builtin`, as far as the registry uses it. -/
structure Builtin where
  Fn : List (Option Object) → Result

/-- Go: `var builtin = map[string]*object.Builtin{...}`; `none` is the missing
key. -/
def builtin (name : String) : Option Builtin :=
  if name = "len" then some ⟨len⟩
  else if name = "first" then some ⟨first⟩
  else if name = "last" then some ⟨last⟩
  else none

end evaluator

namespace token

/-- The token types of package `token` that the parser names, and `OTHER` for
every other type.  Their values are declared outside the files at hand. -/
inductive TokenType where
  | LET
  | RETURN
  | IDENT
  | ASSIGN
  | SEMICOLON
  | EOF
  | OTHER (name : String)
  deriving DecidableEq, Repr

/-- Go: `token.Token`, with its fields `Type` and `Literal`. -/
structure Token where
  Typ : TokenType
  Literal : String
  deriving DecidableEq, Repr

end token

namespace lexer

open token

/-- The lexer, as the tokens that it has yet to yield. -/
structure Lexer where
  input : List Token

/-- The token that the lexer yields once its input is used up. -/
def eofToken : Token := ⟨.EOF, ""⟩

/-- Modelled from the spec: `Lexer.NextToken` is declared outside the files at
hand; the lexer yields the tokens of a finite list and then `EOF` for ever. -/
def Lexer.NextToken (l : Lexer) : Token × Lexer :=
  match l.input with
  | [] => (eofToken, l)
  | t :: ts => (t, ⟨ts⟩)

end lexer

namespace ast

open token

/-- Go: `ast.Identifier`. -/
structure Identifier where
  Token : token.Token
  Value : String
  deriving DecidableEq, Repr

/-- Go: `ast.LetStatement`; `Name` is a pointer, nil until it is assigned.  The
expression field `Value` is never assigned by this parser and is left out. -/
structure LetStatement where
  Token : token.Token
  Name : Option Identifier
  deriving DecidableEq, Repr

/-- Go: `ast.ReturnStatement`.  The expression field `ReturnValue` is never
assigned by this parser and is left out. -/
structure ReturnStatement where
  Token : token.Token
  deriving DecidableEq, Repr

/-- A non-nil value of the interface `ast.Statement`: a pointer to a let
statement or to a return statement, which may itself be nil. -/
inductive Statement where
  | Let (ptr : Option LetStatement)
  | Return (ptr : Option ReturnStatement)
  deriving DecidableEq, Repr

/-- Go: `ast.Program`. -/
structure Program where
  Statements : List Statement
  deriving DecidableEq, Repr

end ast

namespace parser

open token lexer ast

/-- Go: `utils.ErrorString` as `peekError` builds it: the message "expected
next token to be T, got G instead", kept as the pair of `T` and `G`. -/
structure ErrorString where
  expected : TokenType
  got : TokenType
  deriving DecidableEq, Repr

/-- Go: the struct `Parser`. -/
structure Parser where
  l : Lexer
  currToken : Token
  peekToken : Token
  errors : List ErrorString

/-- The zero value of `token.Token`, which the fields of a new `Parser` hold
before the first tokens are read. -/
def zeroToken : Token := ⟨.OTHER "", ""⟩

/-- Go: `func (p *Parser) nextToken()`. -/
def nextToken (p : Parser) : Parser :=
  { p with currToken := p.peekToken, peekToken := p.l.NextToken.1, l := p.l.NextToken.2 }

/-- Go: `func New(l *lexer.Lexer) *Parser`. -/
def New (l : Lexer) : Parser :=
  nextToken (nextToken { l := l, currToken := zeroToken, peekToken := zeroToken, errors := [] })

/-- Go: `func (p *Parser) Errors() []utils.ErrorString`. -/
def Errors (p : Parser) : List ErrorString := p.errors

/-- Go: `func (p *Parser) peekError(t token.TokenType)`. -/
def peekError (p : Parser) (t : TokenType) : Parser :=
  { p with errors := p.errors ++ [⟨t, p.peekToken.Typ⟩] }

/-- Go: `func (p *Parser) expectPeek(t token.TokenType) bool`. -/
def expectPeek (p : Parser) (t : TokenType) : Parser × Bool :=
  if p.peekToken.Typ = t then (nextToken p, true) else (peekError p t, false)

/-- The loop `for p.currToken.Type != token.SEMICOLON { p.nextToken() }` with a
bound on the number of times its condition is tested: `none` when the loop has
not come to its end by then. -/
def skipToSemicolon : Nat → Parser → Option Parser
  | 0, _ => none
  | fuel + 1, p =>
    if p.currToken.Typ ≠ .SEMICOLON then skipToSemicolon fuel (nextToken p) else some p

/-- Go: `func (p *Parser) parseLetStatement() *ast.LetStatement`; `fuel` bounds
its loop. -/
def parseLetStatement (fuel : Nat) (p : Parser) : Option (Parser × Option LetStatement) :=
  let stmt : LetStatement := { Token := p.currToken, Name := none }
  let (p1, ok1) := expectPeek p .IDENT
  if !ok1 then some (p1, none)
  else
    let stmt1 : LetStatement :=
      { stmt with Name := some { Token := p1.currToken, Value := p1.currToken.Literal } }
    let (p2, ok2) := expectPeek p1 .ASSIGN
    if !ok2 then some (p2, none)
    else
      match skipToSemicolon fuel p2 with
      | none => none
      | some p3 => some (p3, some stmt1)

/-- Go: `func (p *Parser) parseReturnStatement() *ast.ReturnStatement`; `fuel`
bounds its loop. -/
def parseReturnStatement (fuel : Nat) (p : Parser) :
    Option (Parser × Option ReturnStatement) :=
  let stmt : ReturnStatement := { Token := p.currToken }
  match skipToSemicolon fuel (nextToken p) with
  | none => none
  | some p1 => some (p1, some stmt)

/-- Go: `func (p *Parser) parseStatement() ast.Statement`; the value returned
is the interface value, `none` being the nil interface: a nil pointer returned
by `parseLetStatement` becomes a non-nil interface value. -/
def parseStatement (fuel : Nat) (p : Parser) : Option (Parser × Option Statement) :=
  if p.currToken.Typ = .LET then
    match parseLetStatement fuel p with
    | none => none
    | some (p1, ptr) => some (p1, some (.Let ptr))
  else if p.currToken.Typ = .RETURN then
    match parseReturnStatement fuel p with
    | none => none
    | some (p1, ptr) => some (p1, some (.Return ptr))
  else some (p, none)

/-- The loop of `ParseProgram`, entered with the statements gathered so far;
`fuel` bounds the number of times its condition is tested, and the loops of the
statements parsed in it. -/
def parseLoop : Nat → Parser → List Statement → Option (Parser × List Statement)
  | 0, _, _ => none
  | fuel + 1, p, statements =>
    if p.currToken.Typ ≠ .EOF then
      match parseStatement fuel p with
      | none => none
      | some (p1, stmt) =>
        match stmt with
        | some st => parseLoop fuel (nextToken p1) (statements ++ [st])
        | none => parseLoop fuel (nextToken p1) statements
    else some (p, statements)

/-- Go: `func (p *Parser) ParseProgram() *ast.Program`; `none` when `fuel` is
not enough for it to return. -/
def ParseProgram (fuel : Nat) (p : Parser) : Option (Parser × Program) :=
  match parseLoop fuel p [] with
  | none => none
  | some (p1, statements) => some (p1, ⟨statements⟩)

/-- The parser that stands on the token stream `toks`: its current token is
the first of `toks`, its peek token the second, and its lexer has the others
yet to yield; a token that `toks` does not have is the `EOF` of the lexer. -/
def parserAt (toks : List Token) (errors : List ErrorString) : Parser :=
  { l := ⟨toks.tail.tail⟩
    currToken := toks.headD eofToken
    peekToken := toks.tail.headD eofToken
    errors := errors }

/-- The tokens that come after the current token of the parser: its peek token
and what its lexer has yet to yield. -/
def upcoming (p : Parser) : List Token := p.peekToken :: p.l.input

/-- A well-formed statement of the input, by its tokens: `let IDENT = body ;`
or `return body ;`. -/
inductive SourceStatement where
  | letStmt (letTok ident assign : Token) (body : List Token) (semi : Token)
  | returnStmt (returnTok : Token) (body : List Token) (semi : Token)

/-- The tokens of a statement of the input are of the types that its shape
asks for, and its body has no semicolon. -/
def SourceStatement.WellFormed : SourceStatement → Prop
  | .letStmt letTok ident assign body semi =>
    letTok.Typ = .LET ∧ ident.Typ = .IDENT ∧ assign.Typ = .ASSIGN ∧
      (∀ t ∈ body, t.Typ ≠ .SEMICOLON) ∧ semi.Typ = .SEMICOLON
  | .returnStmt returnTok body semi =>
    returnTok.Typ = .RETURN ∧ (∀ t ∈ body, t.Typ ≠ .SEMICOLON) ∧ semi.Typ = .SEMICOLON

/-- The tokens of a statement of the input, in source order. -/
def SourceStatement.tokens : SourceStatement → List Token
  | .letStmt letTok ident assign body semi => letTok :: ident :: assign :: (body ++ [semi])
  | .returnStmt returnTok body semi => returnTok :: (body ++ [semi])

/-- The statement of the program that an input statement stands for: a let
statement whose `Name` is the identifier token with its literal as `Value`, or
a return statement. -/
def SourceStatement.parsed : SourceStatement → Statement
  | .letStmt letTok ident _ _ _ =>
    .Let (some { Token := letTok, Name := some { Token := ident, Value := ident.Literal } })
  | .returnStmt returnTok _ _ => .Return (some { Token := returnTok })

/-- The tokens of a list of input statements, in source order. -/
def sourceTokens : List SourceStatement → List Token
  | [] => []
  | st :: sts => st.tokens ++ sourceTokens sts

/-- The parser states in which the loop of `ParseProgram`, started in `p0`,
tests its condition. -/
inductive Dispatches (p0 : Parser) : Parser → Prop where
  | start : Dispatches p0 p0
  | next (p p1 : Parser) (stmt : Option Statement) (fuel : Nat) :
      Dispatches p0 p → p.currToken.Typ ≠ .EOF →
      parseStatement fuel p = some (p1, stmt) → Dispatches p0 (nextToken p1)

/-- A `return` token that is the current token is followed by a semicolon
before the end of input, and so is a `let IDENT =` prefix that starts at the
current token. -/
def FollowedBySemicolon (p : Parser) : Prop :=
  (p.currToken.Typ = .RETURN → ∃ t ∈ upcoming p, t.Typ = .SEMICOLON) ∧
  (p.currToken.Typ = .LET → p.peekToken.Typ = .IDENT →
    ∀ a rest, p.l.input = a :: rest → a.Typ = .ASSIGN → ∃ t ∈ rest, t.Typ = .SEMICOLON)

end parser

namespace vm

open object code

/-! ## The stack primitives -/

theorem index_eq_getElem? {α : Type} (s : List α) (i : Int) (h : 0 ≤ i) :
    index s i = s[i.toNat]? := by
  simp [index, h]

theorem push_ok (vm : VM) (obj : Option Object) (hwf : WF vm)
    (hlt : vm.sp < (StackSize : Int)) :
    push vm obj
      = .ok { vm with stack := vm.stack.set vm.sp.toNat obj, sp := vm.sp + 1 } none := by
  obtain ⟨hlen, h0, _⟩ := hwf
  have h1 : ¬ vm.sp ≥ (StackSize : Int) := by omega
  have h2 : 0 ≤ vm.sp ∧ vm.sp.toNat < vm.stack.length := by
    refine ⟨h0, ?_⟩
    rw [hlen]; omega
  simp only [push, h1, h2, if_false, if_true, and_self]

theorem push_overflow (vm : VM) (obj : Option Object) (h : (StackSize : Int) ≤ vm.sp) :
    push vm obj = .ok vm (some "stackover flow") := by
  simp [push, h]

theorem slot_below_sp (vm : VM) (hwf : WF vm) (hpos : 0 < vm.sp) :
    ∃ obj, vm.stack[(vm.sp - 1).toNat]? = some obj := by
  obtain ⟨hlen, _, hle⟩ := hwf
  have hlt : (vm.sp - 1).toNat < vm.stack.length := by rw [hlen]; omega
  exact ⟨vm.stack[(vm.sp - 1).toNat], List.getElem?_eq_getElem hlt⟩

theorem pop_ok (vm : VM) (obj : Option Object) (hpos : 0 < vm.sp)
    (hslot : vm.stack[(vm.sp - 1).toNat]? = some obj) :
    pop vm = .ok { vm with sp := vm.sp - 1 } obj := by
  have h1 : ¬ vm.sp = 0 := by omega
  have h2 : index vm.stack (vm.sp - 1) = some obj := by
    rw [index_eq_getElem? _ _ (by omega), hslot]
  simp only [pop, h1, h2, if_false]

theorem pop_empty (vm : VM) (h : vm.sp = 0) : pop vm = .ok vm none := by
  simp [pop, h]

/-! ## The loop of `Run` -/

theorem runLoop_exit (oc : Opcodes) (vm : VM) (ip : Nat)
    (h : ¬ ip < vm.instructions.length) :
    runLoop oc vm ip = (vm, .returned none) := by
  rw [runLoop]
  simp [h]

theorem runLoop_next (oc : Opcodes) (vm vm1 : VM) (ip ip1 : Nat)
    (h : ip < vm.instructions.length)
    (hs : execute oc vm ip vm.instructions[ip] = .next vm1 ip1) :
    runLoop oc vm ip = runLoop oc vm1 (ip1 + 1) := by
  rw [runLoop]
  simp only [h, dite_true]
  split
  · rename_i heq
    rw [hs] at heq
    cases heq
    rfl
  · rename_i heq
    rw [hs] at heq
    cases heq

theorem runLoop_done (oc : Opcodes) (vm vm1 : VM) (ip : Nat) (r : RunResult)
    (h : ip < vm.instructions.length)
    (hs : execute oc vm ip vm.instructions[ip] = .done vm1 r) :
    runLoop oc vm ip = (vm1, r) := by
  rw [runLoop]
  simp only [h, dite_true]
  split
  · rename_i heq
    rw [hs] at heq
    cases heq
  · rename_i heq
    rw [hs] at heq
    cases heq
    rfl

theorem runLoop_fetch_next (oc : Opcodes) (vm vm1 : VM) (ip ip1 : Nat) (op : Opcode)
    (hf : vm.instructions[ip]? = some op) (hs : execute oc vm ip op = .next vm1 ip1) :
    runLoop oc vm ip = runLoop oc vm1 (ip1 + 1) := by
  obtain ⟨h, hop⟩ := List.getElem?_eq_some.mp hf
  exact runLoop_next oc vm vm1 ip ip1 h (by rw [hop]; exact hs)

theorem runLoop_fetch_done (oc : Opcodes) (vm vm1 : VM) (ip : Nat) (op : Opcode) (r : RunResult)
    (hf : vm.instructions[ip]? = some op) (hs : execute oc vm ip op = .done vm1 r) :
    runLoop oc vm ip = (vm1, r) := by
  obtain ⟨h, hop⟩ := List.getElem?_eq_some.mp hf
  exact runLoop_done oc vm vm1 ip r h (by rw [hop]; exact hs)

/-! ## Decoding -/

theorem opcodes_pairwise_ne (oc : Opcodes) :
    (oc.OpConstant ≠ oc.OpAdd ∧ oc.OpConstant ≠ oc.OpSub ∧ oc.OpConstant ≠ oc.OpMul ∧
      oc.OpConstant ≠ oc.OpDiv ∧ oc.OpConstant ≠ oc.OpPop) ∧
    (oc.OpAdd ≠ oc.OpSub ∧ oc.OpAdd ≠ oc.OpMul ∧ oc.OpAdd ≠ oc.OpDiv ∧ oc.OpAdd ≠ oc.OpPop) ∧
    (oc.OpSub ≠ oc.OpMul ∧ oc.OpSub ≠ oc.OpDiv ∧ oc.OpSub ≠ oc.OpPop) ∧
    (oc.OpMul ≠ oc.OpDiv ∧ oc.OpMul ≠ oc.OpPop) ∧ oc.OpDiv ≠ oc.OpPop := by
  have h := oc.distinct
  simp only [List.nodup_cons, List.mem_cons, List.mem_singleton, not_or, List.not_mem_nil,
    not_false_eq_true, List.nodup_nil, and_true] at h
  obtain ⟨⟨a1, a2, a3, a4, a5⟩, ⟨b1, b2, b3, b4⟩, ⟨c1, c2, c3⟩, ⟨d1, d2⟩, e1⟩ := h
  exact ⟨⟨a1, a2, a3, a4, a5⟩, ⟨b1, b2, b3, b4⟩, ⟨c1, c2, c3⟩, ⟨d1, d2⟩, e1⟩

theorem execute_OpPop (oc : Opcodes) (vm : VM) (ip : Nat) :
    execute oc vm ip oc.OpPop =
      match pop vm with
      | .panic vm1 p => .done vm1 (.panicked p)
      | .ok vm1 _ => .next vm1 ip := by
  obtain ⟨⟨_, _, _, _, a5⟩, ⟨_, _, _, b4⟩, ⟨_, _, c3⟩, ⟨_, d2⟩, e1⟩ := opcodes_pairwise_ne oc
  simp [execute, a5.symm, b4.symm, c3.symm, d2.symm, e1.symm]

theorem execute_unknown (oc : Opcodes) (vm : VM) (ip : Nat) (op : Opcode)
    (h : op ∉ oc.defined) : execute oc vm ip op = .next vm ip := by
  simp only [Opcodes.defined, List.mem_cons, List.mem_singleton, not_or, List.not_mem_nil,
    not_false_eq_true, and_true] at h
  obtain ⟨h1, h2, h3, h4, h5, h6⟩ := h
  simp [execute, h1, h2, h3, h4, h5, h6]

theorem arith_OpAdd (oc : Opcodes) (l r : Int) :
    arith oc oc.OpAdd (some (.Integer l)) (some (.Integer r)) = .ok (wrap64 (l + r)) := by
  simp [arith, asInteger]

theorem arith_OpSub (oc : Opcodes) (l r : Int) :
    arith oc oc.OpSub (some (.Integer l)) (some (.Integer r)) = .ok (wrap64 (l - r)) := by
  obtain ⟨_, ⟨b1, _, _, _⟩, _, _, _⟩ := opcodes_pairwise_ne oc
  simp [arith, asInteger, b1.symm]

theorem arith_OpMul (oc : Opcodes) (l r : Int) :
    arith oc oc.OpMul (some (.Integer l)) (some (.Integer r)) = .ok (wrap64 (l * r)) := by
  obtain ⟨_, ⟨_, b2, _, _⟩, ⟨c1, _, _⟩, _, _⟩ := opcodes_pairwise_ne oc
  simp [arith, asInteger, b2.symm, c1.symm]

theorem arith_OpDiv (oc : Opcodes) (l r : Int) (hr : r ≠ 0) :
    arith oc oc.OpDiv (some (.Integer l)) (some (.Integer r)) = .ok (wrap64 (Int.tdiv l r)) := by
  obtain ⟨_, ⟨_, _, b3, _⟩, ⟨_, c2, _⟩, ⟨d1, _⟩, _⟩ := opcodes_pairwise_ne oc
  simp [arith, asInteger, b3.symm, c2.symm, d1.symm, hr]

/-- The arithmetic case of the loop body on a machine whose two topmost slots
hold `Integer l` below `Integer r`. -/
theorem execute_arith (oc : Opcodes) (vm : VM) (ip : Nat) (op : Opcode) (l r res : Int)
    (hwf : WF vm) (hsp : 2 ≤ vm.sp)
    (hop : op = oc.OpAdd ∨ op = oc.OpSub ∨ op = oc.OpMul ∨ op = oc.OpDiv)
    (hl : vm.stack[(vm.sp - 2).toNat]? = some (some (.Integer l)))
    (hr : vm.stack[(vm.sp - 1).toNat]? = some (some (.Integer r)))
    (har : arith oc op (some (.Integer l)) (some (.Integer r)) = .ok res) :
    execute oc vm ip op =
      .next { vm with stack := vm.stack.set (vm.sp - 2).toNat (some (.Integer res)),
                      sp := vm.sp - 1 } ip := by
  obtain ⟨⟨a1, a2, a3, a4, _⟩, _⟩ := opcodes_pairwise_ne oc
  have hne : op ≠ oc.OpConstant := by
    rcases hop with h | h | h | h <;> rw [h] <;> intro h' <;> simp_all
  obtain ⟨hlen, h0, hle⟩ := hwf
  have hp1 := pop_ok vm _ (by omega) hr
  have hp2 : pop { vm with sp := vm.sp - 1 }
      = .ok { vm with sp := vm.sp - 1 - 1 } (some (.Integer l)) :=
    pop_ok { vm with sp := vm.sp - 1 } _ (by show 0 < vm.sp - 1; omega)
      (by show vm.stack[(vm.sp - 1 - 1).toNat]? = _
          rw [show vm.sp - 1 - 1 = vm.sp - 2 by omega]; exact hl)
  have hp3 := push_ok { vm with sp := vm.sp - 1 - 1 } (some (.Integer res))
    ⟨hlen, by show 0 ≤ vm.sp - 1 - 1; omega, by show vm.sp - 1 - 1 ≤ _; omega⟩
    (by show vm.sp - 1 - 1 < _; omega)
  simp only [execute, hne, if_false, hop, if_true, hp1, hp2, har, hp3]
  rw [show vm.sp - 1 - 1 = vm.sp - 2 by omega, show vm.sp - 2 + 1 = vm.sp - 1 by omega]

theorem ReadUint16_drop (ins : Instructions) (ip : Nat) (hi lo : Fin 256)
    (h1 : ins[ip + 1]? = some hi) (h2 : ins[ip + 2]? = some lo) :
    ReadUint16 (ins.drop (ip + 1)) = some (hi.val * 256 + lo.val) := by
  have e0 : (ins.drop (ip + 1))[0]? = some hi := by
    rw [List.getElem?_drop]; simpa using h1
  have e1 : (ins.drop (ip + 1))[1]? = some lo := by
    rw [List.getElem?_drop]; simpa using h2
  generalize ins.drop (ip + 1) = l at e0 e1
  match l, e0, e1 with
  | [], e0, _ => simp at e0
  | [_], _, e1 => simp at e1
  | a :: b :: _, e0, e1 =>
    simp at e0 e1
    simp [ReadUint16, e0, e1]

theorem execute_OpConstant (oc : Opcodes) (vm : VM) (ip : Nat) :
    execute oc vm ip oc.OpConstant =
      match ReadUint16 (vm.instructions.drop (ip + 1)) with
      | none => .done vm (.panicked .indexOutOfRange)
      | some idx =>
        match vm.constants[idx]? with
        | none => .done vm (.panicked .indexOutOfRange)
        | some c =>
          match push vm c with
          | .panic vm1 p => .done vm1 (.panicked p)
          | .ok vm1 (some err) => .done vm1 (.returned (some err))
          | .ok vm1 none => .next vm1 (ip + 2) := by
  simp [execute]

/-- The `OpConstant` case of the loop body when the operand decodes to `idx`,
the pool holds `c` there and the stack has room. -/
theorem execute_OpConstant_ok (oc : Opcodes) (vm : VM) (ip idx : Nat) (c : Option Object)
    (hwf : WF vm) (hlt : vm.sp < (StackSize : Int))
    (hrd : ReadUint16 (vm.instructions.drop (ip + 1)) = some idx)
    (hc : vm.constants[idx]? = some c) :
    execute oc vm ip oc.OpConstant =
      .next { vm with stack := vm.stack.set vm.sp.toNat c, sp := vm.sp + 1 } (ip + 2) := by
  rw [execute_OpConstant]
  simp only [hrd, hc, push_ok vm c hwf hlt]

/-- The `OpConstant` case of the loop body when the stack is full. -/
theorem execute_OpConstant_overflow (oc : Opcodes) (vm : VM) (ip idx : Nat) (c : Option Object)
    (hfull : (StackSize : Int) ≤ vm.sp)
    (hrd : ReadUint16 (vm.instructions.drop (ip + 1)) = some idx)
    (hc : vm.constants[idx]? = some c) :
    execute oc vm ip oc.OpConstant = .done vm (.returned (some "stackover flow")) := by
  rw [execute_OpConstant]
  simp only [hrd, hc, push_overflow vm c hfull]

/-! ## The stack discipline is kept -/

theorem WF_New (bytecode : ByteCode) : WF (New bytecode) := by
  simp [WF, New]

theorem WF_push (vm : VM) (obj : Option Object) (hwf : WF vm) : WF (push vm obj).vm := by
  by_cases h : vm.sp < (StackSize : Int)
  · rw [push_ok vm obj hwf h]
    obtain ⟨hlen, h0, hle⟩ := hwf
    refine ⟨?_, ?_, ?_⟩
    · simpa [Res.vm] using hlen
    · show 0 ≤ vm.sp + 1; omega
    · show vm.sp + 1 ≤ _; omega
  · rw [push_overflow vm obj (by omega)]
    exact hwf

theorem WF_pop (vm : VM) (hwf : WF vm) : WF (pop vm).vm := by
  by_cases h : vm.sp = 0
  · rw [pop_empty vm h]; exact hwf
  · obtain ⟨hlen, h0, hle⟩ := hwf
    have hpos : 0 < vm.sp := by omega
    obtain ⟨obj, hobj⟩ := slot_below_sp vm ⟨hlen, h0, hle⟩ hpos
    rw [pop_ok vm obj hpos hobj]
    refine ⟨hlen, ?_, ?_⟩
    · show 0 ≤ vm.sp - 1; omega
    · show vm.sp - 1 ≤ _; omega

/-- What every operation of the machine keeps: the program, and the stack
discipline. -/
def Keeps (vm vm1 : VM) : Prop :=
  vm1.instructions = vm.instructions ∧ vm1.constants = vm.constants ∧ (WF vm → WF vm1)

theorem Keeps.refl (vm : VM) : Keeps vm vm := ⟨rfl, rfl, id⟩

theorem Keeps.trans {a b c : VM} (h1 : Keeps a b) (h2 : Keeps b c) : Keeps a c :=
  ⟨h2.1.trans h1.1, h2.2.1.trans h1.2.1, fun h => h2.2.2 (h1.2.2 h)⟩

theorem push_keeps (vm : VM) (obj : Option Object) : Keeps vm (push vm obj).vm := by
  refine ⟨?_, ?_, WF_push vm obj⟩
  · unfold push; split
    · rfl
    · split <;> rfl
  · unfold push; split
    · rfl
    · split <;> rfl

theorem pop_keeps (vm : VM) : Keeps vm (pop vm).vm := by
  refine ⟨?_, ?_, WF_pop vm⟩
  · unfold pop; split
    · rfl
    · split <;> rfl
  · unfold pop; split
    · rfl
    · split <;> rfl

theorem execute_keeps (oc : Opcodes) (vm : VM) (ip : Nat) (op : Opcode) :
    Keeps vm (execute oc vm ip op).vm := by
  unfold execute
  split
  · split
    · exact Keeps.refl vm
    · split
      · exact Keeps.refl vm
      · rename_i c _
        have hk := push_keeps vm c
        split <;> rename_i heq <;> rw [heq] at hk <;> exact hk
  · split
    · have hk1 := pop_keeps vm
      split
      · rename_i heq; rw [heq] at hk1; exact hk1
      · rename_i vm1 right heq
        rw [heq] at hk1
        have hk2 := pop_keeps vm1
        split
        · rename_i heq2; rw [heq2] at hk2; exact hk1.trans hk2
        · rename_i vm2 left heq2
          rw [heq2] at hk2
          split
          · exact hk1.trans hk2
          · rename_i result _
            have hk3 := push_keeps vm2 (some (.Integer result))
            split <;> rename_i heq3 <;> rw [heq3] at hk3 <;>
              exact (hk1.trans hk2).trans hk3
    · split
      · have hk := pop_keeps vm
        split <;> rename_i heq <;> rw [heq] at hk <;> exact hk
      · exact Keeps.refl vm

/-- The loop body leaves `ip` where it is, or moves it over the two operand
bytes of `OpConstant`. -/
theorem execute_next_ip (oc : Opcodes) (vm vm1 : VM) (ip ip1 : Nat) (op : Opcode)
    (hs : execute oc vm ip op = .next vm1 ip1) : ip1 = ip ∨ ip1 = ip + 2 := by
  unfold execute at hs
  repeat' split at hs
  all_goals first
    | (cases hs; simp)
    | cases hs

theorem runLoop_keeps (oc : Opcodes) (n : Nat) :
    ∀ (vm : VM) (ip : Nat), vm.instructions.length - ip ≤ n →
      Keeps vm (runLoop oc vm ip).1 := by
  induction n with
  | zero =>
    intro vm ip hn
    rw [runLoop_exit oc vm ip (by omega)]
    exact Keeps.refl vm
  | succ n ih =>
    intro vm ip hn
    by_cases h : ip < vm.instructions.length
    · have hk := execute_keeps oc vm ip vm.instructions[ip]
      cases hs : execute oc vm ip vm.instructions[ip] with
      | next vm1 ip1 =>
        rw [runLoop_next oc vm vm1 ip ip1 h hs]
        rw [hs] at hk
        have hle : ip ≤ ip1 := by
          rcases execute_next_ip oc vm vm1 ip ip1 _ hs with h1 | h1 <;> omega
        have hlen : vm1.instructions.length = vm.instructions.length :=
          congrArg List.length hk.1
        exact hk.trans (ih vm1 (ip1 + 1) (by omega))
      | done vm1 r =>
        rw [runLoop_done oc vm vm1 ip r h hs]
        rw [hs] at hk
        exact hk
    · rw [runLoop_exit oc vm ip h]
      exact Keeps.refl vm

theorem wrap64_of_int64 (x : Int) (h1 : -2 ^ 63 ≤ x) (h2 : x < 2 ^ 63) : wrap64 x = x := by
  unfold wrap64
  rw [Int.emod_eq_of_lt (by omega) (by omega)]
  omega

/-! ## The machine seen as live slots followed by free slots -/

theorem New_eq_stackState (bytecode : ByteCode) :
    New bytecode = stackState bytecode [] (List.replicate StackSize none) := by
  simp [New, stackState]

theorem push_stackState (bc : ByteCode) (used free : List (Option Object))
    (x obj : Option Object) (h : used.length < StackSize) :
    push (stackState bc used (x :: free)) obj = .ok (stackState bc (used ++ [obj]) free) none := by
  have h1 : ¬ ((used.length : Int) ≥ (StackSize : Int)) := by omega
  simp only [push, stackState, h1, if_false]
  simp

theorem push_stackState_full (bc : ByteCode) (used free : List (Option Object))
    (obj : Option Object) (h : StackSize ≤ used.length) :
    push (stackState bc used free) obj = .ok (stackState bc used free) (some "stackover flow") := by
  have h1 : (used.length : Int) ≥ (StackSize : Int) := by omega
  simp only [push, stackState, h1, if_true]

theorem getElem_length_append_cons {α : Type} (used free : List α) (x : α)
    (h : used.length < (used ++ x :: free).length) :
    (used ++ x :: free)[used.length] = x := by
  have h1 : (used ++ x :: free)[used.length]? = some x := by
    rw [List.getElem?_append_right (Nat.le_refl _)]
    simp
  rw [List.getElem?_eq_getElem h] at h1
  exact Option.some.inj h1

theorem pop_stackState (bc : ByteCode) (used free : List (Option Object)) (obj : Option Object) :
    pop (stackState bc (used ++ [obj]) free) = .ok (stackState bc used (obj :: free)) obj := by
  have h1 : ¬ ((used.length : Int) + 1 = 0) := by omega
  simp [pop, stackState, index, h1, getElem_length_append_cons]

theorem lastPoppedStackElem_stackState (bc : ByteCode) (used free : List (Option Object))
    (x : Option Object) :
    lastPoppedStackElem (stackState bc used (x :: free))
      = .ok (stackState bc used (x :: free)) x := by
  simp [lastPoppedStackElem, stackState, index, getElem_length_append_cons]

theorem execute_OpConstant_stackState (oc : Opcodes) (bc : ByteCode)
    (used free : List (Option Object)) (x c : Option Object) (ip idx : Nat)
    (h : used.length < StackSize)
    (hrd : ReadUint16 (bc.Instructions.drop (ip + 1)) = some idx)
    (hc : bc.Constants[idx]? = some c) :
    execute oc (stackState bc used (x :: free)) ip oc.OpConstant
      = .next (stackState bc (used ++ [c]) free) (ip + 2) := by
  rw [execute_OpConstant]
  have hrd1 : ReadUint16 ((stackState bc used (x :: free)).instructions.drop (ip + 1))
      = some idx := hrd
  have hc1 : (stackState bc used (x :: free)).constants[idx]? = some c := hc
  simp only [hrd1, hc1, push_stackState bc used free x c h]

theorem execute_OpConstant_stackState_full (oc : Opcodes) (bc : ByteCode)
    (used free : List (Option Object)) (c : Option Object) (ip idx : Nat)
    (h : StackSize ≤ used.length)
    (hrd : ReadUint16 (bc.Instructions.drop (ip + 1)) = some idx)
    (hc : bc.Constants[idx]? = some c) :
    execute oc (stackState bc used free) ip oc.OpConstant
      = .done (stackState bc used free) (.returned (some "stackover flow")) := by
  rw [execute_OpConstant]
  have hrd1 : ReadUint16 ((stackState bc used free).instructions.drop (ip + 1))
      = some idx := hrd
  have hc1 : (stackState bc used free).constants[idx]? = some c := hc
  simp only [hrd1, hc1, push_stackState_full bc used free c h]

theorem execute_arith_stackState (oc : Opcodes) (bc : ByteCode)
    (used free : List (Option Object)) (ip : Nat) (op : Opcode) (l r res : Int)
    (h : used.length < StackSize)
    (hop : op = oc.OpAdd ∨ op = oc.OpSub ∨ op = oc.OpMul ∨ op = oc.OpDiv)
    (har : arith oc op (some (.Integer l)) (some (.Integer r)) = .ok res) :
    execute oc (stackState bc (used ++ [some (.Integer l), some (.Integer r)]) free) ip op
      = .next (stackState bc (used ++ [some (.Integer res)]) (some (.Integer r) :: free)) ip := by
  obtain ⟨⟨a1, a2, a3, a4, _⟩, _⟩ := opcodes_pairwise_ne oc
  have hne : op ≠ oc.OpConstant := by
    rcases hop with h | h | h | h <;> rw [h] <;> intro h' <;> simp_all
  have hsplit : used ++ [some (.Integer l), some (.Integer r)]
      = (used ++ [some (Object.Integer l)]) ++ [some (.Integer r)] := by simp
  simp only [execute, hne, if_false, hop, if_true, hsplit, pop_stackState, har,
    push_stackState bc used (some (.Integer r) :: free) _ _ h]

theorem execute_OpPop_stackState (oc : Opcodes) (bc : ByteCode)
    (used free : List (Option Object)) (obj : Option Object) (ip : Nat) :
    execute oc (stackState bc (used ++ [obj]) free) ip oc.OpPop
      = .next (stackState bc used (obj :: free)) ip := by
  rw [execute_OpPop, pop_stackState]

theorem replicate_StackSize :
    List.replicate StackSize (none : Option Object)
      = none :: none :: List.replicate (StackSize - 2) none := by
  rfl

/-- The run of `OpConstant 0, OpConstant 1, OpAdd, OpPop` on the fresh machine,
step by step. -/
theorem addProgram_trace (oc : Opcodes) (a b : Int) (rest : List (Option Object)) :
    Run oc (New ⟨addProgram oc, some (.Integer a) :: some (.Integer b) :: rest⟩)
      = (stackState ⟨addProgram oc, some (.Integer a) :: some (.Integer b) :: rest⟩ []
          (some (.Integer (wrap64 (a + b))) :: some (.Integer b)
            :: List.replicate (StackSize - 2) none),
         .returned none) := by
  generalize hbc : (⟨addProgram oc, some (.Integer a) :: some (.Integer b) :: rest⟩
      : ByteCode) = bc
  have hI : bc.Instructions = [oc.OpConstant, 0, 0, oc.OpConstant, 0, 1, oc.OpAdd, oc.OpPop] := by
    rw [← hbc]; rfl
  have hC : bc.Constants = some (.Integer a) :: some (.Integer b) :: rest := by
    rw [← hbc]
  have hS : ∀ u f, (stackState bc u f).instructions
      = [oc.OpConstant, 0, 0, oc.OpConstant, 0, 1, oc.OpAdd, oc.OpPop] := fun _ _ => hI
  unfold Run
  rw [New_eq_stackState, replicate_StackSize]
  have e1 := execute_OpConstant_stackState oc bc [] (none :: List.replicate (StackSize - 2) none)
    none (some (.Integer a)) 0 0 (by simp [StackSize]) (by rw [hI]; rfl) (by rw [hC]; simp)
  have e2 := execute_OpConstant_stackState oc bc [some (.Integer a)]
    (List.replicate (StackSize - 2) none) none (some (.Integer b)) 3 1
    (by simp [StackSize]) (by rw [hI]; rfl) (by rw [hC]; simp)
  have e3 := execute_arith_stackState oc bc [] (List.replicate (StackSize - 2) none) 6
    oc.OpAdd a b _ (by simp [StackSize]) (Or.inl rfl) (arith_OpAdd oc a b)
  have e4 := execute_OpPop_stackState oc bc []
    (some (.Integer b) :: List.replicate (StackSize - 2) none)
    (some (.Integer (wrap64 (a + b)))) 7
  simp only [List.nil_append, List.cons_append, Nat.reduceAdd] at e1 e2 e3 e4
  rw [runLoop_fetch_next oc _ _ 0 2 oc.OpConstant (by rw [hS]; rfl) e1]
  rw [runLoop_fetch_next oc _ _ 3 5 oc.OpConstant (by rw [hS]; rfl) e2]
  rw [runLoop_fetch_next oc _ _ 6 6 oc.OpAdd (by rw [hS]; rfl) e3]
  rw [runLoop_fetch_next oc _ _ 7 7 oc.OpPop (by rw [hS]; rfl) e4]
  rw [runLoop_exit oc _ 8 (by rw [hS]; simp)]

/-- The loop of `Run` on a run of `OpConstant` instructions: every instruction
pushes its constant while a free slot is left; the first one that finds the
stack full makes `Run` return the overflow error, the machine being as the
pushes before it left it. -/
theorem runLoop_constantProgram (oc : Opcodes) (bc : ByteCode) :
    ∀ (ops : List (Fin 256 × Fin 256)) (pre : Instructions) (used free : List (Option Object)),
      bc.Instructions = pre ++ constantProgram oc ops →
      used.length + free.length = StackSize →
      (∀ p ∈ ops, p.1.val * 256 + p.2.val < bc.Constants.length) →
      runLoop oc (stackState bc used free) pre.length =
        if ops.length ≤ free.length then
          (stackState bc (used ++ ops.map (constantAt bc.Constants)) (free.drop ops.length),
            .returned none)
        else
          (stackState bc (used ++ (ops.take free.length).map (constantAt bc.Constants)) [],
            .returned (some "stackover flow")) := by
  intro ops
  induction ops with
  | nil =>
    intro pre used free hI _ _
    rw [runLoop_exit]
    · simp
    · show ¬ pre.length < bc.Instructions.length
      rw [hI]; simp [constantProgram]
  | cons p ops ih =>
    intro pre used free hI hlen hin
    have hI1 : (stackState bc used free).instructions
        = pre ++ oc.OpConstant :: p.1 :: p.2 :: constantProgram oc ops := hI
    have hf : (stackState bc used free).instructions[pre.length]? = some oc.OpConstant := by
      rw [hI1, List.getElem?_append_right (Nat.le_refl _)]; simp
    have hhi : bc.Instructions[pre.length + 1]? = some p.1 := by
      rw [hI, List.getElem?_append_right (by omega)]; simp [constantProgram]
    have hlo : bc.Instructions[pre.length + 2]? = some p.2 := by
      rw [hI, List.getElem?_append_right (by omega)]; simp [constantProgram]
    have hrd := ReadUint16_drop bc.Instructions pre.length p.1 p.2 hhi hlo
    have hidx := hin p (List.mem_cons_self _ _)
    have hc : bc.Constants[p.1.val * 256 + p.2.val]? = some (constantAt bc.Constants p) := by
      simp [constantAt, List.getElem?_eq_getElem hidx]
    cases free with
    | nil =>
      have hfull : StackSize ≤ used.length := by simp at hlen; omega
      rw [runLoop_fetch_done oc _ _ _ _ _ hf
        (execute_OpConstant_stackState_full oc bc used [] _ pre.length _ hfull hrd hc)]
      simp
    | cons x free =>
      have hroom : used.length < StackSize := by simp at hlen; omega
      rw [runLoop_fetch_next oc _ _ _ _ _ hf
        (execute_OpConstant_stackState oc bc used free x _ pre.length _ hroom hrd hc)]
      have hpre : pre.length + 2 + 1 = (pre ++ [oc.OpConstant, p.1, p.2]).length := by simp
      rw [hpre, ih (pre ++ [oc.OpConstant, p.1, p.2]) (used ++ [constantAt bc.Constants p]) free
        (by rw [hI]; simp [constantProgram]) (by simp at hlen ⊢; omega)
        (fun q hq => hin q (List.mem_cons_of_mem _ hq))]
      by_cases hle : ops.length ≤ free.length
      · simp [hle]
      · simp [hle]

/-! ## The claims -/

/-- C1: for Integer constants `a` and `b` at indices 0 and 1 of the pool, `Run`
on the fresh machine for `OpConstant 0, OpConstant 1, OpAdd, OpPop` returns no
error, ends with `sp = 0`, and `lastPoppedStackElem` then returns the Integer
`a + b`: the `int64` sum, which is the exact sum reduced into the 64-bit range
and so the exact sum whenever that is representable.  The pool `[1,2,3,4]`
gives `Integer(3)`. -/
theorem Run_add_program (oc : Opcodes) (a b : Int) (rest : List (Option Object)) :
    (Run oc (New ⟨addProgram oc, some (.Integer a) :: some (.Integer b) :: rest⟩)).2
      = .returned none ∧
    (Run oc (New ⟨addProgram oc, some (.Integer a) :: some (.Integer b) :: rest⟩)).1.sp = 0 ∧
    lastPoppedStackElem
        (Run oc (New ⟨addProgram oc, some (.Integer a) :: some (.Integer b) :: rest⟩)).1
      = .ok (Run oc (New ⟨addProgram oc, some (.Integer a) :: some (.Integer b) :: rest⟩)).1
          (some (.Integer (wrap64 (a + b)))) ∧
    (-2 ^ 63 ≤ a + b ∧ a + b < 2 ^ 63 → wrap64 (a + b) = a + b) ∧
    lastPoppedStackElem
        (Run oc (New ⟨addProgram oc, [some (.Integer 1), some (.Integer 2),
          some (.Integer 3), some (.Integer 4)]⟩)).1
      = .ok (Run oc (New ⟨addProgram oc, [some (.Integer 1), some (.Integer 2),
          some (.Integer 3), some (.Integer 4)]⟩)).1 (some (.Integer 3)) := by
  refine ⟨?_, ?_, ?_, ?_, ?_⟩
  · rw [addProgram_trace]
  · rw [addProgram_trace]; rfl
  · rw [addProgram_trace]
    exact lastPoppedStackElem_stackState _ _ _ _
  · intro h
    exact wrap64_of_int64 _ h.1 h.2
  · rw [addProgram_trace]
    exact lastPoppedStackElem_stackState _ _ _ _

/-- The spec's example run: with the constant pool `[1,2,3,4]` the program
returns no error, leaves `sp = 0` and the last popped element is `Integer(3)`. -/
theorem Run_add_program_witness :
    (-2 ^ 63 ≤ (1 : Int) + 2 ∧ (1 : Int) + 2 < 2 ^ 63) ∧
    (Run sampleOpcodes (New ⟨addProgram sampleOpcodes, [some (.Integer 1), some (.Integer 2),
      some (.Integer 3), some (.Integer 4)]⟩)).2 = .returned none ∧
    (Run sampleOpcodes (New ⟨addProgram sampleOpcodes, [some (.Integer 1), some (.Integer 2),
      some (.Integer 3), some (.Integer 4)]⟩)).1.sp = 0 ∧
    wrap64 (1 + 2) = 1 + 2 :=
  ⟨by decide,
   (Run_add_program sampleOpcodes 1 2 [some (.Integer 3), some (.Integer 4)]).1,
   (Run_add_program sampleOpcodes 1 2 [some (.Integer 3), some (.Integer 4)]).2.1,
   (Run_add_program sampleOpcodes 1 2 [some (.Integer 3), some (.Integer 4)]).2.2.2.1
     (by decide)⟩

/-- C2: on a machine with `sp < StackSize`, for an `OpConstant` at position `ip`
whose two operand bytes decode big-endian to an index inside the constant pool,
one pass of the loop of `Run` stores that constant in slot `sp`, raises `sp` by
exactly one, leaves every slot below the old `sp` unchanged, and the loop goes
on decoding at `ip + 3`. -/
theorem OpConstant_step (oc : Opcodes) (vm : VM) (ip : Nat) (hi lo : Fin 256)
    (c : Option Object) (hwf : WF vm) (hlt : vm.sp < (StackSize : Int))
    (hop : vm.instructions[ip]? = some oc.OpConstant)
    (hhi : vm.instructions[ip + 1]? = some hi) (hlo : vm.instructions[ip + 2]? = some lo)
    (hc : vm.constants[hi.val * 256 + lo.val]? = some c) :
    ∃ vm1, execute oc vm ip oc.OpConstant = .next vm1 (ip + 2) ∧
      runLoop oc vm ip = runLoop oc vm1 (ip + 3) ∧
      vm1.stack[vm.sp.toNat]? = some c ∧
      vm1.sp = vm.sp + 1 ∧
      (∀ j : Nat, (j : Int) < vm.sp → vm1.stack[j]? = vm.stack[j]?) ∧
      vm1.stack.length = vm.stack.length := by
  have hrd := ReadUint16_drop vm.instructions ip hi lo hhi hlo
  have hex := execute_OpConstant_ok oc vm ip _ c hwf hlt hrd hc
  obtain ⟨hlen, h0, _⟩ := hwf
  refine ⟨_, hex, runLoop_fetch_next oc vm _ ip (ip + 2) _ hop hex, ?_, rfl, ?_, ?_⟩
  · have hb : vm.sp.toNat < vm.stack.length := by rw [hlen]; omega
    simp [List.getElem?_set, hb]
  · intro j hj
    have hne : vm.sp.toNat ≠ j := by omega
    simp [List.getElem?_set, hne]
  · simp

/-- An `OpConstant 0` on the fresh machine with a one-element pool. -/
theorem OpConstant_step_witness :
    (New ⟨[sampleOpcodes.OpConstant, 0, 0], [some (.Integer 7)]⟩).sp < (StackSize : Int) ∧
    ∃ vm1, execute sampleOpcodes (New ⟨[sampleOpcodes.OpConstant, 0, 0], [some (.Integer 7)]⟩)
        0 sampleOpcodes.OpConstant = .next vm1 2 ∧ vm1.sp = 1 ∧
      vm1.stack[0]? = some (some (.Integer 7)) := by
  refine ⟨by decide, ?_⟩
  obtain ⟨vm1, h1, _, h3, h4, _, _⟩ :=
    OpConstant_step sampleOpcodes (New ⟨[sampleOpcodes.OpConstant, 0, 0], [some (.Integer 7)]⟩)
      0 0 0 (some (.Integer 7)) (WF_New _) (by decide) (by rfl) (by rfl) (by rfl) (by rfl)
  exact ⟨vm1, h1, h4, h3⟩

/-- C3: on a machine whose two topmost slots hold `Integer l` (lower slot) and
`Integer r` (top slot), the first `pop` yields `r` and the second `l`, and
`OpAdd`, `OpSub`, `OpMul`, `OpDiv` (the last with `r ≠ 0`) put the single Integer
`l + r`, `l - r`, `l * r`, `l / r` (in `int64` arithmetic, left operand first;
division truncates) into the slot that held `l` and lower `sp` by exactly one.
A result that is representable in `int64` is the exact one. -/
theorem arith_step (oc : Opcodes) (vm : VM) (ip : Nat) (l r : Int)
    (hwf : WF vm) (hsp : 2 ≤ vm.sp)
    (hl : vm.stack[(vm.sp - 2).toNat]? = some (some (.Integer l)))
    (hr : vm.stack[(vm.sp - 1).toNat]? = some (some (.Integer r))) :
    pop vm = .ok { vm with sp := vm.sp - 1 } (some (.Integer r)) ∧
    pop { vm with sp := vm.sp - 1 } = .ok { vm with sp := vm.sp - 2 } (some (.Integer l)) ∧
    execute oc vm ip oc.OpAdd =
      .next { vm with stack := vm.stack.set (vm.sp - 2).toNat (some (.Integer (wrap64 (l + r)))),
                      sp := vm.sp - 1 } ip ∧
    execute oc vm ip oc.OpSub =
      .next { vm with stack := vm.stack.set (vm.sp - 2).toNat (some (.Integer (wrap64 (l - r)))),
                      sp := vm.sp - 1 } ip ∧
    execute oc vm ip oc.OpMul =
      .next { vm with stack := vm.stack.set (vm.sp - 2).toNat (some (.Integer (wrap64 (l * r)))),
                      sp := vm.sp - 1 } ip ∧
    (r ≠ 0 → execute oc vm ip oc.OpDiv =
      .next { vm with stack := vm.stack.set (vm.sp - 2).toNat
                        (some (.Integer (wrap64 (Int.tdiv l r)))),
                      sp := vm.sp - 1 } ip) ∧
    (∀ x : Int, -2 ^ 63 ≤ x → x < 2 ^ 63 → wrap64 x = x) := by
  refine ⟨pop_ok vm _ (by omega) hr, ?_, ?_, ?_, ?_, ?_, wrap64_of_int64⟩
  · have h := pop_ok { vm with sp := vm.sp - 1 } (some (.Integer l))
      (by show 0 < vm.sp - 1; omega)
      (by show vm.stack[(vm.sp - 1 - 1).toNat]? = _
          rw [show vm.sp - 1 - 1 = vm.sp - 2 by omega]; exact hl)
    rw [h, show vm.sp - 1 - 1 = vm.sp - 2 by omega]
  · exact execute_arith oc vm ip _ l r _ hwf hsp (Or.inl rfl) hl hr (arith_OpAdd oc l r)
  · exact execute_arith oc vm ip _ l r _ hwf hsp (Or.inr (Or.inl rfl)) hl hr
      (arith_OpSub oc l r)
  · exact execute_arith oc vm ip _ l r _ hwf hsp (Or.inr (Or.inr (Or.inl rfl))) hl hr
      (arith_OpMul oc l r)
  · intro hr0
    exact execute_arith oc vm ip _ l r _ hwf hsp (Or.inr (Or.inr (Or.inr rfl))) hl hr
      (arith_OpDiv oc l r hr0)

theorem WF_twoIntegers (l r : Int) : WF (twoIntegers l r) := by
  refine ⟨?_, ?_, ?_⟩
  · simp only [twoIntegers, stackState, List.length_append, List.length_cons, List.length_nil,
      List.length_replicate]
    rfl
  · show (0 : Int) ≤ 2
    decide
  · show (2 : Int) ≤ (StackSize : Int)
    decide

/-- On the stack `7, 2` the division step leaves `Integer(3)` in slot 0. -/
theorem arith_step_witness :
    WF (twoIntegers 7 2) ∧ 2 ≤ (twoIntegers 7 2).sp ∧ (2 : Int) ≠ 0 ∧
    execute sampleOpcodes (twoIntegers 7 2) 0 sampleOpcodes.OpDiv =
      .next { twoIntegers 7 2 with
                stack := (twoIntegers 7 2).stack.set 0 (some (.Integer 3)), sp := 1 } 0 :=
  ⟨WF_twoIntegers 7 2, by decide, by decide,
   (arith_step sampleOpcodes (twoIntegers 7 2) 0 7 2 (WF_twoIntegers 7 2) (by decide)
      (by simp [twoIntegers, stackState]) (by simp [twoIntegers, stackState])).2.2.2.2.2.1
      (by decide)⟩

/-- C4: for a program of more than `StackSize` `OpConstant` instructions with
in-range indices, `Run` on the fresh machine returns the stack-overflow error;
then `sp = StackSize` and slot `k`, for every `k < StackSize`, holds the
constant of the `k`-th instruction.  The overflowing push changes nothing: the
stack and `sp` are those that the first `StackSize` instructions alone leave
behind. -/
theorem Run_stack_overflow (oc : Opcodes) (constants : List (Option Object))
    (ops : List (Fin 256 × Fin 256)) (hn : StackSize < ops.length)
    (hin : ∀ p ∈ ops, p.1.val * 256 + p.2.val < constants.length) :
    ∃ vm1, Run oc (New ⟨constantProgram oc ops, constants⟩)
        = (vm1, .returned (some "stackover flow")) ∧
      vm1.sp = (StackSize : Int) ∧ vm1.stack.length = StackSize ∧
      (∀ (k : Nat) (p : Fin 256 × Fin 256), k < StackSize → ops[k]? = some p →
        vm1.stack[k]? = constants[p.1.val * 256 + p.2.val]?) ∧
      (Run oc (New ⟨constantProgram oc (ops.take StackSize), constants⟩)).2 = .returned none ∧
      (Run oc (New ⟨constantProgram oc (ops.take StackSize), constants⟩)).1.stack = vm1.stack ∧
      (Run oc (New ⟨constantProgram oc (ops.take StackSize), constants⟩)).1.sp = vm1.sp := by
  have hrun := runLoop_constantProgram oc ⟨constantProgram oc ops, constants⟩ ops []
    [] (List.replicate StackSize none) rfl (by simp) hin
  have hnot : ¬ ops.length ≤ StackSize := by omega
  simp only [List.length_replicate, hnot, if_false, List.nil_append, List.length_nil] at hrun
  have hrun2 := runLoop_constantProgram oc ⟨constantProgram oc (ops.take StackSize), constants⟩
    (ops.take StackSize) [] [] (List.replicate StackSize none) rfl (by simp)
    (fun p hp => hin p (List.mem_of_mem_take hp))
  have hlt : (ops.take StackSize).length = StackSize := by
    rw [List.length_take]; omega
  simp only [List.length_replicate, hlt, Nat.le_refl, if_true, List.nil_append,
    List.length_nil] at hrun2
  have hdrop : List.drop StackSize (List.replicate StackSize (none : Option Object)) = [] := by
    simp
  rw [hdrop] at hrun2
  refine ⟨stackState ⟨constantProgram oc ops, constants⟩
    ((ops.take StackSize).map (constantAt constants)) [], ?_, ?_, ?_, ?_, ?_, ?_, ?_⟩
  · unfold Run
    rw [New_eq_stackState]
    exact hrun
  · show (((ops.take StackSize).map (constantAt constants)).length : Int) = _
    rw [List.length_map, hlt]
  · show ((ops.take StackSize).map (constantAt constants) ++ []).length = _
    rw [List.append_nil, List.length_map, hlt]
  · intro k p hk hp
    show ((ops.take StackSize).map (constantAt constants) ++ [])[k]? = _
    have hmem : p ∈ ops := List.getElem?_mem hp
    have hidx := hin p hmem
    rw [List.append_nil, List.getElem?_map, List.getElem?_take_of_lt hk, hp]
    simp [constantAt, List.getElem?_eq_getElem hidx]
  · unfold Run
    rw [New_eq_stackState, hrun2]
  · unfold Run
    rw [New_eq_stackState, hrun2]
    rfl
  · unfold Run
    rw [New_eq_stackState, hrun2]
    rfl

/-- The program of 2049 instructions `OpConstant 0` overflows the stack. -/
theorem Run_stack_overflow_witness :
    StackSize < (List.replicate 2049 ((0 : Fin 256), (0 : Fin 256))).length ∧
    ∃ vm1, Run sampleOpcodes (New ⟨constantProgram sampleOpcodes
          (List.replicate 2049 ((0 : Fin 256), (0 : Fin 256))), [some (.Integer 7)]⟩)
        = (vm1, .returned (some "stackover flow")) ∧ vm1.sp = (StackSize : Int) := by
  have hlen : StackSize < (List.replicate 2049 ((0 : Fin 256), (0 : Fin 256))).length := by
    rw [List.length_replicate]; decide
  refine ⟨hlen, ?_⟩
  obtain ⟨vm1, h1, h2, _⟩ := Run_stack_overflow sampleOpcodes [some (.Integer 7)]
    (List.replicate 2049 ((0 : Fin 256), (0 : Fin 256))) hlen
    (by intro p hp
        rw [List.eq_of_mem_replicate hp]
        decide)
  exact ⟨vm1, h1, h2⟩

/-- C5: for every machine state and object, `push` returns an error exactly
when `sp >= StackSize`; a `push` that returns an error leaves the machine (stack
contents and `sp`) as it was; a `push` that succeeds has written the object into
slot `sp`, changed no other slot and raised `sp` by one.  Under the stack
discipline a `push` with `sp < StackSize` does succeed. -/
theorem push_spec (vm : VM) (obj : Option Object) :
    ((∃ vm1 err, push vm obj = .ok vm1 (some err)) ↔ vm.sp ≥ (StackSize : Int)) ∧
    (∀ vm1 err, push vm obj = .ok vm1 (some err) → vm1 = vm) ∧
    (∀ vm1, push vm obj = .ok vm1 none →
      vm1.sp = vm.sp + 1 ∧
      vm1.stack.length = vm.stack.length ∧
      vm1.stack[vm.sp.toNat]? = some obj ∧
      (∀ j : Nat, j ≠ vm.sp.toNat → vm1.stack[j]? = vm.stack[j]?) ∧
      vm1.constants = vm.constants ∧ vm1.instructions = vm.instructions) ∧
    (WF vm → vm.sp < (StackSize : Int) → ∃ vm1, push vm obj = .ok vm1 none) := by
  refine ⟨⟨?_, ?_⟩, ?_, ?_, ?_⟩
  · rintro ⟨vm1, err, h⟩
    unfold push at h
    split at h
    · assumption
    · split at h <;> cases h
  · intro h
    exact ⟨vm, _, push_overflow vm obj h⟩
  · intro vm1 err h
    unfold push at h
    split at h
    · cases h; rfl
    · split at h <;> cases h
  · intro vm1 h
    unfold push at h
    split at h
    · cases h
    · split at h
      · rename_i hb
        cases h
        refine ⟨rfl, ?_, ?_, ?_, rfl, rfl⟩
        · simp
        · simp [List.getElem?_set, hb.2]
        · intro j hj
          simp [List.getElem?_set, Ne.symm hj]
      · cases h
  · intro hwf hlt
    exact ⟨_, push_ok vm obj hwf hlt⟩

/-- A push onto the fresh machine succeeds, raises `sp` to 1 and fills
slot 0. -/
theorem push_spec_witness :
    WF (New ⟨[], []⟩) ∧ (New ⟨[], []⟩).sp < (StackSize : Int) ∧
    ∃ vm1, push (New ⟨[], []⟩) (some (.Integer 5)) = .ok vm1 none ∧ vm1.sp = 1 ∧
      vm1.stack[0]? = some (some (.Integer 5)) := by
  refine ⟨WF_New _, by decide, ?_⟩
  obtain ⟨vm1, h1⟩ :=
    (push_spec (New ⟨[], []⟩) (some (.Integer 5))).2.2.2 (WF_New _) (by decide)
  obtain ⟨h2, _, h4, _⟩ := (push_spec (New ⟨[], []⟩) (some (.Integer 5))).2.2.1 vm1 h1
  exact ⟨vm1, h1, h2, h4⟩

/-- C8: with `sp > 0`, `pop` returns the object in slot `sp - 1`, lowers `sp` by
one and leaves every slot of the stack array as it was, the vacated one
included, so that `lastPoppedStackElem` called right afterwards returns the
object that `pop` returned. -/
theorem pop_spec (vm : VM) (hwf : WF vm) (hpos : 0 < vm.sp) :
    ∃ vm1 obj, pop vm = .ok vm1 obj ∧
      vm.stack[(vm.sp - 1).toNat]? = some obj ∧
      vm1.sp = vm.sp - 1 ∧
      vm1.stack = vm.stack ∧
      vm1.constants = vm.constants ∧ vm1.instructions = vm.instructions ∧
      lastPoppedStackElem vm1 = .ok vm1 obj := by
  obtain ⟨obj, hobj⟩ := slot_below_sp vm hwf hpos
  refine ⟨_, obj, pop_ok vm obj hpos hobj, hobj, rfl, rfl, rfl, rfl, ?_⟩
  have h2 : index vm.stack (vm.sp - 1) = some obj := by
    rw [index_eq_getElem? _ _ (by omega), hobj]
  simp only [lastPoppedStackElem, h2]

/-- Popping the stack `7, 2` returns `Integer(2)`, which is then the last
popped element. -/
theorem pop_spec_witness :
    WF (twoIntegers 7 2) ∧ 0 < (twoIntegers 7 2).sp ∧
    ∃ vm1, pop (twoIntegers 7 2) = .ok vm1 (some (.Integer 2)) ∧ vm1.sp = 1 ∧
      lastPoppedStackElem vm1 = .ok vm1 (some (.Integer 2)) := by
  refine ⟨WF_twoIntegers 7 2, by decide, ?_⟩
  obtain ⟨vm1, obj, h1, h2, h3, _, _, _, h7⟩ :=
    pop_spec (twoIntegers 7 2) (WF_twoIntegers 7 2) (by decide)
  have hobj : obj = some (.Integer 2) := by
    simpa [twoIntegers, stackState] using h2.symm
  subst hobj
  exact ⟨vm1, h1, h3, h7⟩

/-- C9: `StackTop` returns nil when `sp = 0` and the object in slot `sp - 1`
otherwise, and leaves the machine (stack pointer and every slot) as it was. -/
theorem StackTop_spec (vm : VM) (hwf : WF vm) :
    (vm.sp = 0 → StackTop vm = .ok vm none) ∧
    (vm.sp ≠ 0 → ∃ obj, vm.stack[(vm.sp - 1).toNat]? = some obj ∧
      StackTop vm = .ok vm obj) := by
  constructor
  · intro h
    simp [StackTop, h]
  · intro h
    have hpos : 0 < vm.sp := by have := hwf.2.1; omega
    obtain ⟨obj, hobj⟩ := slot_below_sp vm hwf hpos
    have h2 : index vm.stack (vm.sp - 1) = some obj := by
      rw [index_eq_getElem? _ _ (by omega), hobj]
    exact ⟨obj, hobj, by simp only [StackTop, h, if_false, h2]⟩

/-- The top of the stack `7, 2` is `Integer(2)`, and the top of the fresh
machine is nil. -/
theorem StackTop_spec_witness :
    WF (twoIntegers 7 2) ∧ (twoIntegers 7 2).sp ≠ 0 ∧
    StackTop (twoIntegers 7 2) = .ok (twoIntegers 7 2) (some (.Integer 2)) ∧
    StackTop (New ⟨[], []⟩) = .ok (New ⟨[], []⟩) none := by
  refine ⟨WF_twoIntegers 7 2, by decide, ?_,
    (StackTop_spec (New ⟨[], []⟩) (WF_New _)).1 rfl⟩
  obtain ⟨obj, h1, h2⟩ := (StackTop_spec (twoIntegers 7 2) (WF_twoIntegers 7 2)).2 (by decide)
  have hobj : obj = some (.Integer 2) := by
    simpa [twoIntegers, stackState] using h1.symm
  subst hobj
  exact h2

/-- A stream in which no byte is one of the six opcodes runs to its end without
touching the machine. -/
theorem runLoop_all_unknown (oc : Opcodes) (vm : VM)
    (hall : ∀ b ∈ vm.instructions, b ∉ oc.defined) (n : Nat) :
    ∀ ip : Nat, vm.instructions.length - ip ≤ n → runLoop oc vm ip = (vm, .returned none) := by
  induction n with
  | zero =>
    intro ip hn
    exact runLoop_exit oc vm ip (by omega)
  | succ n ih =>
    intro ip hn
    by_cases h : ip < vm.instructions.length
    · have hs := execute_unknown oc vm ip vm.instructions[ip]
        (hall _ (List.getElem_mem h))
      rw [runLoop_next oc vm vm ip ip h hs]
      exact ih (ip + 1) (by omega)
    · exact runLoop_exit oc vm ip h

/-- C6, the claim fails: with the opcodes numbered 0 to 5, the byte 255 is not
an opcode, and `Run` on the one-byte stream `[255]` returns the nil error and
leaves the fresh machine as it was. -/
theorem unknown_opcode_counterexample :
    (255 : Opcode) ∉ sampleOpcodes.defined ∧
    Run sampleOpcodes (New ⟨[255], []⟩) = (New ⟨[255], []⟩, .returned none) := by
  refine ⟨by decide, ?_⟩
  unfold Run
  rw [runLoop_fetch_next sampleOpcodes _ _ 0 0 255 (by rfl)
    (execute_unknown sampleOpcodes _ 0 255 (by decide))]
  exact runLoop_exit _ _ _ (by simp [New])

/-- C6, as amended: a byte that is none of `OpConstant`, `OpAdd`, `OpSub`,
`OpMul`, `OpDiv`, `OpPop` is skipped when the loop of `Run` fetches it: the
pass changes nothing in the machine and the loop goes on at the next byte, so
no failure is reported for it; a stream made of such bytes only makes `Run`
return the nil error. -/
theorem unknown_opcode_skipped (oc : Opcodes) (vm : VM) (ip : Nat) (op : Opcode)
    (hf : vm.instructions[ip]? = some op) (hop : op ∉ oc.defined) :
    execute oc vm ip op = .next vm ip ∧
    runLoop oc vm ip = runLoop oc vm (ip + 1) ∧
    ((∀ b ∈ vm.instructions, b ∉ oc.defined) → Run oc vm = (vm, .returned none)) := by
  have hs := execute_unknown oc vm ip op hop
  exact ⟨hs, runLoop_fetch_next oc vm vm ip ip op hf hs,
    fun hall => runLoop_all_unknown oc vm hall _ 0 (Nat.le_refl _)⟩

/-- The byte 255 in front of the spec's example program is skipped. -/
theorem unknown_opcode_skipped_witness :
    (255 : Opcode) ∉ sampleOpcodes.defined ∧
    runLoop sampleOpcodes (New ⟨255 :: addProgram sampleOpcodes, []⟩) 0
      = runLoop sampleOpcodes (New ⟨255 :: addProgram sampleOpcodes, []⟩) 1 :=
  ⟨by decide,
   (unknown_opcode_skipped sampleOpcodes (New ⟨255 :: addProgram sampleOpcodes, []⟩) 0 255
      (by rfl) (by decide)).2.1⟩

/-- C7, the claim fails: with the opcodes numbered 0 to 5, `Run` on
`OpConstant 1` with a one-element constant pool (both operand bytes are in the
stream, the index 1 is `>= len(constants)`) does not return an error, nil or
not: it ends in an index-out-of-range panic. -/
theorem bounds_check_counterexample :
    ([some (.Integer 1)] : List (Option Object)).length
      ≤ (0 : Fin 256).val * 256 + (1 : Fin 256).val ∧
    Run sampleOpcodes (New ⟨[sampleOpcodes.OpConstant, 0, 1], [some (.Integer 1)]⟩)
      = (New ⟨[sampleOpcodes.OpConstant, 0, 1], [some (.Integer 1)]⟩,
          .panicked .indexOutOfRange) ∧
    (∀ err, (Run sampleOpcodes
        (New ⟨[sampleOpcodes.OpConstant, 0, 1], [some (.Integer 1)]⟩)).2 ≠ .returned err) := by
  have hrun : Run sampleOpcodes (New ⟨[sampleOpcodes.OpConstant, 0, 1], [some (.Integer 1)]⟩)
      = (New ⟨[sampleOpcodes.OpConstant, 0, 1], [some (.Integer 1)]⟩,
          .panicked .indexOutOfRange) :=
    runLoop_fetch_done sampleOpcodes _ _ 0 sampleOpcodes.OpConstant _ (by rfl)
      (by rw [execute_OpConstant]; rfl)
  refine ⟨by decide, hrun, ?_⟩
  intro err h
  rw [hrun] at h
  cases h

/-- C7, as amended: the read that `Run` makes in the constant pool is checked by
the run time of the host language only.  When the `OpConstant` fetched at `ip`
has its two operand bytes in the stream and they decode, big-endian, to an index
`>= len(constants)`, `Run` does not return a failure result: it stops there with
an index-out-of-range panic, the machine being as it was before that
instruction. -/
theorem OpConstant_out_of_range (oc : Opcodes) (vm : VM) (ip : Nat) (hi lo : Fin 256)
    (hop : vm.instructions[ip]? = some oc.OpConstant)
    (hhi : vm.instructions[ip + 1]? = some hi) (hlo : vm.instructions[ip + 2]? = some lo)
    (hidx : vm.constants.length ≤ hi.val * 256 + lo.val) :
    execute oc vm ip oc.OpConstant = .done vm (.panicked .indexOutOfRange) ∧
    runLoop oc vm ip = (vm, .panicked .indexOutOfRange) ∧
    (∀ err, (runLoop oc vm ip).2 ≠ .returned err) := by
  have hs : execute oc vm ip oc.OpConstant = .done vm (.panicked .indexOutOfRange) := by
    rw [execute_OpConstant, ReadUint16_drop vm.instructions ip hi lo hhi hlo]
    have hnone : vm.constants[hi.val * 256 + lo.val]? = none :=
      List.getElem?_eq_none hidx
    simp only [hnone]
  have hrun := runLoop_fetch_done oc vm vm ip _ _ hop hs
  refine ⟨hs, hrun, ?_⟩
  intro err h
  rw [hrun] at h
  cases h

/-- The instruction `OpConstant 1` on the fresh machine with a one-element pool
panics. -/
theorem OpConstant_out_of_range_witness :
    (New ⟨[sampleOpcodes.OpConstant, 0, 1], [some (.Integer 1)]⟩).constants.length
      ≤ (0 : Fin 256).val * 256 + (1 : Fin 256).val ∧
    runLoop sampleOpcodes (New ⟨[sampleOpcodes.OpConstant, 0, 1], [some (.Integer 1)]⟩) 0
      = (New ⟨[sampleOpcodes.OpConstant, 0, 1], [some (.Integer 1)]⟩,
          .panicked .indexOutOfRange) :=
  ⟨by decide,
   (OpConstant_out_of_range sampleOpcodes
      (New ⟨[sampleOpcodes.OpConstant, 0, 1], [some (.Integer 1)]⟩) 0 0 1
      (by rfl) (by rfl) (by rfl) (by decide)).2.1⟩

/-- C10: in every machine state that `New`, `push`, `pop`, passes of the loop
body of `Run` and `Run` itself produce, the stack array has `StackSize` slots
and `0 <= sp <= StackSize`; on an empty stack `pop` returns nil and leaves the
machine, with `sp = 0`, as it was. -/
theorem reachable_stack_discipline (oc : Opcodes) (vm : VM) (h : Reachable oc vm) :
    vm.stack.length = StackSize ∧ 0 ≤ vm.sp ∧ vm.sp ≤ (StackSize : Int) ∧
    (vm.sp = 0 → pop vm = .ok vm none) := by
  have hwf : WF vm := by
    induction h with
    | ofNew bc => exact WF_New bc
    | ofPush m obj _ ih => exact (push_keeps m obj).2.2 ih
    | ofPop m _ ih => exact (pop_keeps m).2.2 ih
    | ofExecute m ip op _ ih => exact (execute_keeps oc m ip op).2.2 ih
    | ofRun m _ ih => exact (runLoop_keeps oc _ m 0 (Nat.le_refl _)).2.2 ih
  exact ⟨hwf.1, hwf.2.1, hwf.2.2, pop_empty vm⟩

/-- The machine after a `pop` on the fresh machine keeps the discipline, and
`pop` on it returns nil. -/
theorem reachable_stack_discipline_witness :
    Reachable sampleOpcodes (pop (New ⟨[], []⟩)).vm ∧
    (pop (New ⟨[], []⟩)).vm.sp ≤ (StackSize : Int) ∧
    pop (New ⟨[], []⟩) = .ok (New ⟨[], []⟩) none :=
  ⟨Reachable.ofPop _ (Reachable.ofNew _),
   (reachable_stack_discipline sampleOpcodes _
      (Reachable.ofPop _ (Reachable.ofNew _))).2.2.1,
   (reachable_stack_discipline sampleOpcodes (New ⟨[], []⟩) (Reachable.ofNew _)).2.2.2 rfl⟩

/-! ## 64-bit arithmetic -/

theorem wrap64_range (x : Int) : -2 ^ 63 ≤ wrap64 x ∧ wrap64 x < 2 ^ 63 := by
  unfold wrap64
  constructor <;> omega

theorem wrap64_congr (x : Int) : (2 ^ 64 : Int) ∣ wrap64 x - x := by
  unfold wrap64
  omega

/-- C11: the arithmetic of the machine is 64-bit signed with wrap-around: on a
stack that holds `Integer l` below `Integer r`, `OpAdd`, `OpSub` and `OpMul`
report no error and put into the slot of `l` the Integer that lies in
`[-2^63, 2^63 - 1]` and differs from the exact `l + r`, `l - r`, `l * r` by a
multiple of `2^64`; so `2^63 - 1` plus `1` gives `-2^63`. -/
theorem arith_wraps (oc : Opcodes) (vm : VM) (ip : Nat) (l r : Int)
    (hwf : WF vm) (hsp : 2 ≤ vm.sp)
    (hl : vm.stack[(vm.sp - 2).toNat]? = some (some (.Integer l)))
    (hr : vm.stack[(vm.sp - 1).toNat]? = some (some (.Integer r))) :
    ∃ a s m : Int,
      execute oc vm ip oc.OpAdd =
        .next { vm with stack := vm.stack.set (vm.sp - 2).toNat (some (.Integer a)),
                        sp := vm.sp - 1 } ip ∧
      execute oc vm ip oc.OpSub =
        .next { vm with stack := vm.stack.set (vm.sp - 2).toNat (some (.Integer s)),
                        sp := vm.sp - 1 } ip ∧
      execute oc vm ip oc.OpMul =
        .next { vm with stack := vm.stack.set (vm.sp - 2).toNat (some (.Integer m)),
                        sp := vm.sp - 1 } ip ∧
      (-2 ^ 63 ≤ a ∧ a < 2 ^ 63 ∧ (2 ^ 64 : Int) ∣ a - (l + r)) ∧
      (-2 ^ 63 ≤ s ∧ s < 2 ^ 63 ∧ (2 ^ 64 : Int) ∣ s - (l - r)) ∧
      (-2 ^ 63 ≤ m ∧ m < 2 ^ 63 ∧ (2 ^ 64 : Int) ∣ m - (l * r)) ∧
      (l = 2 ^ 63 - 1 → r = 1 → a = -2 ^ 63) := by
  refine ⟨wrap64 (l + r), wrap64 (l - r), wrap64 (l * r), ?_, ?_, ?_, ?_, ?_, ?_, ?_⟩
  · exact execute_arith oc vm ip _ l r _ hwf hsp (Or.inl rfl) hl hr (arith_OpAdd oc l r)
  · exact execute_arith oc vm ip _ l r _ hwf hsp (Or.inr (Or.inl rfl)) hl hr
      (arith_OpSub oc l r)
  · exact execute_arith oc vm ip _ l r _ hwf hsp (Or.inr (Or.inr (Or.inl rfl))) hl hr
      (arith_OpMul oc l r)
  · exact ⟨(wrap64_range _).1, (wrap64_range _).2, wrap64_congr _⟩
  · exact ⟨(wrap64_range _).1, (wrap64_range _).2, wrap64_congr _⟩
  · exact ⟨(wrap64_range _).1, (wrap64_range _).2, wrap64_congr _⟩
  · intro h1 h2
    subst h1 h2
    decide

/-- On the stack `2^63 - 1, 1` the addition step leaves `Integer(-2^63)`. -/
theorem arith_wraps_witness :
    WF (twoIntegers (2 ^ 63 - 1) 1) ∧ 2 ≤ (twoIntegers (2 ^ 63 - 1) 1).sp ∧
    execute sampleOpcodes (twoIntegers (2 ^ 63 - 1) 1) 0 sampleOpcodes.OpAdd =
      .next { twoIntegers (2 ^ 63 - 1) 1 with
                stack := (twoIntegers (2 ^ 63 - 1) 1).stack.set 0 (some (.Integer (-2 ^ 63))),
                sp := 1 } 0 := by
  refine ⟨WF_twoIntegers _ _, by decide, ?_⟩
  obtain ⟨a, s, m, h1, _, _, _, _, _, h7⟩ :=
    arith_wraps sampleOpcodes (twoIntegers (2 ^ 63 - 1) 1) 0 (2 ^ 63 - 1) 1
      (WF_twoIntegers _ _) (by decide)
      (by simp [twoIntegers, stackState]) (by simp [twoIntegers, stackState])
  rw [h7 rfl rfl] at h1
  exact h1

/-! ## The arithmetic step cannot fail -/

/-- For an arithmetic opcode the inner `switch` never reaches its `default`
branch, whatever the operands are. -/
theorem arith_ne_returned (oc : Opcodes) (op : Opcode) (left right : Option Object)
    (hop : op = oc.OpAdd ∨ op = oc.OpSub ∨ op = oc.OpMul ∨ op = oc.OpDiv)
    (err : Option String) : arith oc op left right ≠ .error (.returned err) := by
  unfold arith
  rcases hop with h | h | h | h
  · subst h
    simp only [if_true]
    split <;> simp
  · subst h
    split
    · split <;> simp
    · simp only [if_true]
      split <;> simp
  · subst h
    split
    · split <;> simp
    · split
      · split <;> simp
      · simp only [if_true]
        split <;> simp
  · subst h
    split
    · split <;> simp
    · split
      · split <;> simp
      · split
        · split <;> simp
        · simp only [if_true]
          split
          · split <;> simp
          · simp

/-- C19: with `sp >= 2`, Integers in the two topmost slots and, for `OpDiv`, a
non-zero top, the pass of the loop body for `OpAdd`, `OpSub`, `OpMul` or `OpDiv`
does not fault and does not end `Run`: after the two pops `sp` is at most
`StackSize - 2`, so the push of the result reports no overflow, and the
`default` branch of the inner `switch` is not reached. -/
theorem arith_step_safe (oc : Opcodes) (vm : VM) (ip : Nat) (op : Opcode) (l r : Int)
    (hwf : WF vm) (hsp : 2 ≤ vm.sp)
    (hop : op = oc.OpAdd ∨ op = oc.OpSub ∨ op = oc.OpMul ∨ op = oc.OpDiv)
    (hl : vm.stack[(vm.sp - 2).toNat]? = some (some (.Integer l)))
    (hr : vm.stack[(vm.sp - 1).toNat]? = some (some (.Integer r)))
    (hdiv : op = oc.OpDiv → r ≠ 0) :
    (∃ res, arith oc op (some (.Integer l)) (some (.Integer r)) = .ok res ∧
      execute oc vm ip op =
        .next { vm with stack := vm.stack.set (vm.sp - 2).toNat (some (.Integer res)),
                        sp := vm.sp - 1 } ip) ∧
    pop vm = .ok { vm with sp := vm.sp - 1 } (some (.Integer r)) ∧
    pop { vm with sp := vm.sp - 1 } = .ok { vm with sp := vm.sp - 2 } (some (.Integer l)) ∧
    vm.sp - 2 ≤ (StackSize : Int) - 2 ∧
    (∀ obj, push { vm with sp := vm.sp - 2 } obj =
      .ok { vm with stack := vm.stack.set (vm.sp - 2).toNat obj, sp := vm.sp - 2 + 1 } none) ∧
    (∀ left right err, arith oc op left right ≠ .error (.returned err)) ∧
    (∀ vm1 res, execute oc vm ip op ≠ .done vm1 res) := by
  have har : ∃ res, arith oc op (some (.Integer l)) (some (.Integer r)) = .ok res := by
    rcases hop with h | h | h | h
    · exact ⟨_, by rw [h]; exact arith_OpAdd oc l r⟩
    · exact ⟨_, by rw [h]; exact arith_OpSub oc l r⟩
    · exact ⟨_, by rw [h]; exact arith_OpMul oc l r⟩
    · exact ⟨_, by rw [h]; exact arith_OpDiv oc l r (hdiv h)⟩
  obtain ⟨res, hres⟩ := har
  have hex := execute_arith oc vm ip op l r res hwf hsp hop hl hr hres
  obtain ⟨hlen, h0, hle⟩ := hwf
  refine ⟨⟨res, hres, hex⟩, pop_ok vm _ (by omega) hr, ?_, by omega, ?_,
    fun left right err => arith_ne_returned oc op left right hop err, ?_⟩
  · have h := pop_ok { vm with sp := vm.sp - 1 } (some (.Integer l))
      (by show 0 < vm.sp - 1; omega)
      (by show vm.stack[(vm.sp - 1 - 1).toNat]? = _
          rw [show vm.sp - 1 - 1 = vm.sp - 2 by omega]; exact hl)
    rw [h, show vm.sp - 1 - 1 = vm.sp - 2 by omega]
  · intro obj
    exact push_ok { vm with sp := vm.sp - 2 } obj
      ⟨hlen, by show 0 ≤ vm.sp - 2; omega, by show vm.sp - 2 ≤ _; omega⟩
      (by show vm.sp - 2 < _; omega)
  · intro vm1 res1 h
    rw [hex] at h
    cases h

/-- On the stack `7, 2` the division step goes on to the next instruction. -/
theorem arith_step_safe_witness :
    WF (twoIntegers 7 2) ∧ 2 ≤ (twoIntegers 7 2).sp ∧
    (sampleOpcodes.OpDiv = sampleOpcodes.OpDiv → (2 : Int) ≠ 0) ∧
    ∀ vm1 res, execute sampleOpcodes (twoIntegers 7 2) 0 sampleOpcodes.OpDiv ≠ .done vm1 res :=
  ⟨WF_twoIntegers 7 2, by decide, fun _ => by decide,
   (arith_step_safe sampleOpcodes (twoIntegers 7 2) 0 sampleOpcodes.OpDiv 7 2
      (WF_twoIntegers 7 2) (by decide) (Or.inr (Or.inr (Or.inr rfl)))
      (by simp [twoIntegers, stackState]) (by simp [twoIntegers, stackState])
      (fun _ => by decide)).2.2.2.2.2.2⟩

/-! ## Last in, first out -/

/-- A machine that keeps the stack discipline is its live slots followed by its
free slots. -/
theorem WF_eq_stackState (vm : VM) (hwf : WF vm) :
    vm = stackState ⟨vm.instructions, vm.constants⟩
      (vm.stack.take vm.sp.toNat) (vm.stack.drop vm.sp.toNat) := by
  obtain ⟨hlen, h0, hle⟩ := hwf
  have hmin : (vm.stack.take vm.sp.toNat).length = vm.sp.toNat := by
    rw [List.length_take, hlen]; omega
  cases vm with
  | mk constants instructions stack sp =>
    simp only [stackState, List.take_append_drop]
    congr
    simp only at hmin h0
    rw [hmin]
    omega

theorem pushAll_stackState (bc : ByteCode) :
    ∀ (xs used free : List (Option Object)),
      xs.length ≤ free.length → used.length + xs.length ≤ StackSize →
      pushAll (stackState bc used free) xs
        = some (stackState bc (used ++ xs) (free.drop xs.length)) := by
  intro xs
  induction xs with
  | nil =>
    intro used free _ _
    simp [pushAll]
  | cons x xs ih =>
    intro used free hfree hroom
    cases free with
    | nil => simp at hfree
    | cons y free =>
      simp only [List.length_cons] at hfree hroom
      simp only [pushAll, push_stackState bc used free y x (by omega)]
      rw [ih (used ++ [x]) free (by omega) (by simp; omega)]
      simp

theorem popN_stackState (bc : ByteCode) :
    ∀ (xs used free : List (Option Object)),
      popN (stackState bc (used ++ xs) free) xs.length
        = some (stackState bc used (xs ++ free), xs.reverse) := by
  intro xs
  induction xs using List.reverseRecOn with
  | nil =>
    intro used free
    simp [popN]
  | append_singleton ys y ih =>
    intro used free
    rw [List.length_append, List.length_singleton, ← List.append_assoc]
    simp only [popN, pop_stackState, ih used (y :: free)]
    simp

/-- C20: the stack is last in, first out.  With `sp < StackSize`, `push(x)`
followed by `pop` returns `x`, restores `sp` and leaves every slot below the
old `sp` unchanged; and after the pushes of `x1..xk` (with
`sp + k <= StackSize`), `k` pops return `xk..x1`, restore `sp` and leave every
slot below the old `sp` unchanged. -/
theorem push_pop_LIFO (vm : VM) (xs : List (Option Object)) (hwf : WF vm)
    (hroom : vm.sp + (xs.length : Int) ≤ (StackSize : Int)) :
    (∀ x, vm.sp < (StackSize : Int) →
      ∃ vm1 vm2, push vm x = .ok vm1 none ∧ pop vm1 = .ok vm2 x ∧ vm2.sp = vm.sp ∧
        ∀ j : Nat, (j : Int) < vm.sp → vm2.stack[j]? = vm.stack[j]?) ∧
    ∃ vm1 vm2, pushAll vm xs = some vm1 ∧ vm1.sp = vm.sp + (xs.length : Int) ∧
      popN vm1 xs.length = some (vm2, xs.reverse) ∧ vm2.sp = vm.sp ∧
      ∀ j : Nat, (j : Int) < vm.sp → vm2.stack[j]? = vm.stack[j]? := by
  have hst := WF_eq_stackState vm hwf
  obtain ⟨hlen, h0, hle⟩ := hwf
  have hused : (vm.stack.take vm.sp.toNat).length = vm.sp.toNat := by
    rw [List.length_take, hlen]; omega
  have hfree : (vm.stack.drop vm.sp.toNat).length = StackSize - vm.sp.toNat := by
    rw [List.length_drop, hlen]
  have hbelow : ∀ (rest : List (Option Object)) (j : Nat), (j : Int) < vm.sp →
      (vm.stack.take vm.sp.toNat ++ rest)[j]? = vm.stack[j]? := by
    intro rest j hj
    have hj1 : j < vm.sp.toNat := by omega
    rw [List.getElem?_append_left (by rw [hused]; exact hj1), List.getElem?_take_of_lt hj1]
  constructor
  · intro x hlt
    have hne : vm.stack.drop vm.sp.toNat ≠ [] := by
      intro h
      rw [h] at hfree
      simp at hfree
      omega
    obtain ⟨y, free, hyf⟩ := List.exists_cons_of_ne_nil hne
    refine ⟨stackState ⟨vm.instructions, vm.constants⟩ (vm.stack.take vm.sp.toNat ++ [x]) free,
      stackState ⟨vm.instructions, vm.constants⟩ (vm.stack.take vm.sp.toNat) (x :: free),
      ?_, pop_stackState _ _ _ _, ?_, ?_⟩
    · have hp := push_stackState ⟨vm.instructions, vm.constants⟩
        (vm.stack.take vm.sp.toNat) free y x (by rw [hused]; omega)
      rw [← hyf, ← hst] at hp
      exact hp
    · show ((vm.stack.take vm.sp.toNat).length : Int) = vm.sp
      rw [hused]; omega
    · intro j hj
      exact hbelow _ j hj
  · refine ⟨stackState ⟨vm.instructions, vm.constants⟩ (vm.stack.take vm.sp.toNat ++ xs)
        ((vm.stack.drop vm.sp.toNat).drop xs.length),
      stackState ⟨vm.instructions, vm.constants⟩ (vm.stack.take vm.sp.toNat)
        (xs ++ (vm.stack.drop vm.sp.toNat).drop xs.length), ?_, ?_, popN_stackState _ _ _ _,
      ?_, ?_⟩
    · have hp := pushAll_stackState ⟨vm.instructions, vm.constants⟩ xs
        (vm.stack.take vm.sp.toNat) (vm.stack.drop vm.sp.toNat)
        (by rw [hfree]; omega) (by rw [hused]; omega)
      rw [← hst] at hp
      exact hp
    · show (((vm.stack.take vm.sp.toNat) ++ xs).length : Int) = _
      rw [List.length_append, hused]; omega
    · show ((vm.stack.take vm.sp.toNat).length : Int) = vm.sp
      rw [hused]; omega
    · intro j hj
      exact hbelow _ j hj

/-- Pushing `1, 2, 3` onto the fresh machine and popping three times returns
`3, 2, 1`. -/
theorem push_pop_LIFO_witness :
    WF (New ⟨[], []⟩) ∧
    (New ⟨[], []⟩).sp + (([some (.Integer 1), some (.Integer 2), some (.Integer 3)]
      : List (Option Object)).length : Int) ≤ (StackSize : Int) ∧
    ∃ vm1 vm2,
      pushAll (New ⟨[], []⟩) [some (.Integer 1), some (.Integer 2), some (.Integer 3)]
        = some vm1 ∧
      popN vm1 3 = some (vm2, [some (.Integer 3), some (.Integer 2), some (.Integer 1)]) ∧
      vm2.sp = 0 := by
  refine ⟨WF_New _, by decide, ?_⟩
  obtain ⟨vm1, vm2, h1, _, h3, h4, _⟩ :=
    (push_pop_LIFO (New ⟨[], []⟩) [some (.Integer 1), some (.Integer 2), some (.Integer 3)]
      (WF_New _) (by decide)).2
  exact ⟨vm1, vm2, h1, h3, h4⟩

/-! ## The loop of `Run` comes to an end -/

/-- A pass of the loop body that goes on moves `ip` over the two operand bytes
exactly when the opcode is `OpConstant`. -/
theorem execute_next_ip_exact (oc : Opcodes) (vm vm1 : VM) (ip ip1 : Nat) (op : Opcode)
    (hs : execute oc vm ip op = .next vm1 ip1) :
    (op = oc.OpConstant → ip1 = ip + 2) ∧ (op ≠ oc.OpConstant → ip1 = ip) := by
  constructor
  · intro hop
    subst hop
    rw [execute_OpConstant] at hs
    repeat' split at hs
    all_goals first
      | (cases hs; rfl)
      | cases hs
  · intro hop
    unfold execute at hs
    rw [if_neg hop] at hs
    repeat' split at hs
    all_goals first
      | (cases hs; rfl)
      | cases hs

theorem runLoopFuel_eq_runLoop (oc : Opcodes) (n : Nat) :
    ∀ (vm : VM) (ip : Nat), vm.instructions.length - ip ≤ n →
      runLoopFuel oc n vm ip = some (runLoop oc vm ip) := by
  induction n with
  | zero =>
    intro vm ip hn
    have h : ¬ ip < vm.instructions.length := by omega
    rw [runLoop_exit oc vm ip h]
    simp [runLoopFuel, h]
  | succ n ih =>
    intro vm ip hn
    by_cases h : ip < vm.instructions.length
    · cases hs : execute oc vm ip vm.instructions[ip] with
      | next vm1 ip1 =>
        have hk := execute_keeps oc vm ip vm.instructions[ip]
        rw [hs] at hk
        have hlen : vm1.instructions.length = vm.instructions.length :=
          congrArg List.length hk.1
        have hle : ip ≤ ip1 := by
          rcases execute_next_ip oc vm vm1 ip ip1 _ hs with h1 | h1 <;> omega
        rw [runLoop_next oc vm vm1 ip ip1 h hs]
        simp only [runLoopFuel, h, dite_true, hs]
        exact ih vm1 (ip1 + 1) (by omega)
      | done vm1 r =>
        rw [runLoop_done oc vm vm1 ip r h hs]
        simp only [runLoopFuel, h, dite_true, hs]
    · rw [runLoop_exit oc vm ip h]
      simp [runLoopFuel, h]

/-- C21: `Run` comes to an end on every instruction stream and constant pool:
a pass of the loop body either ends `Run` or leaves the instruction stream as it
is and raises the instruction pointer, by 3 for `OpConstant` and by 1 for every
other byte, so that `len(instructions)` passes through the loop body are enough
for `Run` to return (or to stop in a fault). -/
theorem Run_terminates (oc : Opcodes) (vm : VM) :
    runLoopFuel oc vm.instructions.length vm 0 = some (Run oc vm) ∧
    (∀ ip : Nat, runLoopFuel oc (vm.instructions.length - ip) vm ip
      = some (runLoop oc vm ip)) ∧
    (∀ (ip : Nat) (op : Opcode) (vm1 : VM) (ip1 : Nat),
      execute oc vm ip op = .next vm1 ip1 →
        vm1.instructions = vm.instructions ∧
        (op = oc.OpConstant → ip1 + 1 = ip + 3) ∧
        (op ≠ oc.OpConstant → ip1 + 1 = ip + 1)) := by
  refine ⟨runLoopFuel_eq_runLoop oc _ vm 0 (Nat.le_refl _),
    fun ip => runLoopFuel_eq_runLoop oc _ vm ip (Nat.le_refl _), ?_⟩
  intro ip op vm1 ip1 hs
  have hk := execute_keeps oc vm ip op
  rw [hs] at hk
  obtain ⟨h1, h2⟩ := execute_next_ip_exact oc vm vm1 ip ip1 op hs
  exact ⟨hk.1, fun h => by rw [h1 h], fun h => by rw [h2 h]⟩

/-- Eight passes are enough for the eight bytes of the spec's example program,
which returns the nil error. -/
theorem Run_terminates_witness :
    runLoopFuel sampleOpcodes 8
        (New ⟨addProgram sampleOpcodes, [some (.Integer 1), some (.Integer 2)]⟩) 0
      = some (Run sampleOpcodes
        (New ⟨addProgram sampleOpcodes, [some (.Integer 1), some (.Integer 2)]⟩)) ∧
    (Run sampleOpcodes
        (New ⟨addProgram sampleOpcodes, [some (.Integer 1), some (.Integer 2)]⟩)).2
      = .returned none :=
  ⟨(Run_terminates sampleOpcodes
      (New ⟨addProgram sampleOpcodes, [some (.Integer 1), some (.Integer 2)]⟩)).1,
   by rw [addProgram_trace]⟩

/-! ## Division -/

/-- The quotient of Go's `/` on integers has the sign of the product. -/
theorem tdiv_sign (l r : Int) :
    (0 ≤ l * r → 0 ≤ Int.tdiv l r) ∧ (l * r ≤ 0 → Int.tdiv l r ≤ 0) := by
  rcases Int.le_total 0 l with hl | hl <;> rcases Int.le_total 0 r with hr | hr
  · refine ⟨fun _ => Int.tdiv_nonneg hl hr, fun h => ?_⟩
    have h0 : l * r = 0 := Int.le_antisymm h (Int.mul_nonneg hl hr)
    rcases Int.mul_eq_zero.mp h0 with h1 | h1 <;> simp [h1]
  · refine ⟨fun h => ?_, fun _ => Int.tdiv_nonpos hl hr⟩
    have h0 : l * r = 0 := Int.le_antisymm (Int.mul_nonpos_of_nonneg_of_nonpos hl hr) h
    rcases Int.mul_eq_zero.mp h0 with h1 | h1 <;> simp [h1]
  · have hneg : Int.tdiv l r = -(Int.tdiv (-l) r) := by simp
    have hq : 0 ≤ Int.tdiv (-l) r := Int.tdiv_nonneg (by omega) hr
    refine ⟨fun h => ?_, fun _ => by omega⟩
    have h0 : l * r = 0 := Int.le_antisymm (Int.mul_nonpos_of_nonpos_of_nonneg hl hr) h
    rcases Int.mul_eq_zero.mp h0 with h1 | h1 <;> simp [h1]
  · have hneg : Int.tdiv l r = Int.tdiv (-l) (-r) := (Int.neg_tdiv_neg l r).symm
    have hq : 0 ≤ Int.tdiv (-l) (-r) := Int.tdiv_nonneg (by omega) (by omega)
    refine ⟨fun _ => by omega, fun h => ?_⟩
    have h0 : l * r = 0 := Int.le_antisymm h (Int.mul_nonneg_of_nonpos_of_nonpos hl hr)
    rcases Int.mul_eq_zero.mp h0 with h1 | h1 <;> simp [h1]

/-- The quotient of two `int64` values is an `int64` value, but for
`-2^63 / -1`. -/
theorem tdiv_int64 (l r : Int) (hl : -2 ^ 63 ≤ l ∧ l < 2 ^ 63) (hr0 : r ≠ 0)
    (hover : ¬ (l = -2 ^ 63 ∧ r = -1)) :
    -2 ^ 63 ≤ Int.tdiv l r ∧ Int.tdiv l r < 2 ^ 63 := by
  have habs : (Int.tdiv l r).natAbs = l.natAbs / r.natAbs := Int.natAbs_tdiv l r
  have hle : l.natAbs / r.natAbs ≤ l.natAbs := Nat.div_le_self _ _
  have hlabs : l.natAbs ≤ 2 ^ 63 := by omega
  refine ⟨by omega, ?_⟩
  by_contra hge
  have hq : Int.tdiv l r = 2 ^ 63 := by omega
  have hl1 : l = -2 ^ 63 := by omega
  have hpos : 0 ≤ l * r := by
    by_contra hneg
    have := (tdiv_sign l r).2 (by omega)
    omega
  have hr1 : r < 0 := by
    by_contra hr
    have h1 : 0 < r := by omega
    have h2 : l * r < 0 := Int.mul_neg_of_neg_of_pos (by omega) h1
    omega
  have hr2 : r ≤ -2 := by
    by_contra hr
    exact hover ⟨hl1, by omega⟩
  have hrabs : 2 ≤ r.natAbs := by omega
  have hdiv : l.natAbs / r.natAbs ≤ l.natAbs / 2 := Nat.div_le_div_left hrabs (by decide)
  omega

/-- C22: for `int64` values `l` below `r` on the stack with `r ≠ 0`, `OpDiv`
reports no error and puts into the slot of `l` the quotient of `l` by `r`
truncated toward zero (its absolute value is the whole part of `|l| / |r|`,
its sign the sign of the product), so `-7 / 2 = -3` and `7 / -2 = -3`; the one
case that overflows, `-2^63 / -1`, wraps to `-2^63`. -/
theorem OpDiv_truncates (oc : Opcodes) (vm : VM) (ip : Nat) (l r : Int)
    (hwf : WF vm) (hsp : 2 ≤ vm.sp)
    (hlslot : vm.stack[(vm.sp - 2).toNat]? = some (some (.Integer l)))
    (hrslot : vm.stack[(vm.sp - 1).toNat]? = some (some (.Integer r)))
    (hl : -2 ^ 63 ≤ l ∧ l < 2 ^ 63) (hr : -2 ^ 63 ≤ r ∧ r < 2 ^ 63) (hr0 : r ≠ 0) :
    ∃ q : Int,
      execute oc vm ip oc.OpDiv =
        .next { vm with stack := vm.stack.set (vm.sp - 2).toNat (some (.Integer q)),
                        sp := vm.sp - 1 } ip ∧
      (¬ (l = -2 ^ 63 ∧ r = -1) →
        q.natAbs = l.natAbs / r.natAbs ∧ (0 ≤ l * r → 0 ≤ q) ∧ (l * r ≤ 0 → q ≤ 0)) ∧
      (l = -2 ^ 63 ∧ r = -1 → q = -2 ^ 63) ∧
      (l = -7 → r = 2 → q = -3) ∧ (l = 7 → r = -2 → q = -3) := by
  refine ⟨wrap64 (Int.tdiv l r),
    execute_arith oc vm ip _ l r _ hwf hsp (Or.inr (Or.inr (Or.inr rfl))) hlslot hrslot
      (arith_OpDiv oc l r hr0), ?_, ?_, ?_, ?_⟩
  · intro hover
    obtain ⟨h1, h2⟩ := tdiv_int64 l r hl hr0 hover
    rw [wrap64_of_int64 _ h1 h2]
    exact ⟨Int.natAbs_tdiv l r, (tdiv_sign l r).1, (tdiv_sign l r).2⟩
  · rintro ⟨h1, h2⟩
    subst h1 h2
    decide
  · intro h1 h2
    subst h1 h2
    decide
  · intro h1 h2
    subst h1 h2
    decide

/-- On the stack `-7, 2` the division step leaves `Integer(-3)`. -/
theorem OpDiv_truncates_witness :
    WF (twoIntegers (-7) 2) ∧ 2 ≤ (twoIntegers (-7) 2).sp ∧
    (-2 ^ 63 ≤ (-7 : Int) ∧ (-7 : Int) < 2 ^ 63) ∧ (2 : Int) ≠ 0 ∧
    execute sampleOpcodes (twoIntegers (-7) 2) 0 sampleOpcodes.OpDiv =
      .next { twoIntegers (-7) 2 with
                stack := (twoIntegers (-7) 2).stack.set 0 (some (.Integer (-3))),
                sp := 1 } 0 := by
  refine ⟨WF_twoIntegers _ _, by decide, by decide, by decide, ?_⟩
  obtain ⟨q, h1, _, _, h4, _⟩ :=
    OpDiv_truncates sampleOpcodes (twoIntegers (-7) 2) 0 (-7) 2
      (WF_twoIntegers _ _) (by decide)
      (by simp [twoIntegers, stackState]) (by simp [twoIntegers, stackState])
      (by decide) (by decide) (by decide)
  rw [h4 rfl rfl] at h1
  exact h1

end vm

namespace evaluator

open object

/-! ## The builtins -/

theorem len_arity (args : List (Option Object)) (h : args.length ≠ 1) :
    len args = .ok (some (.Error
      ("wrong number of arguments. got=" ++ toString args.length ++ ", want=1"))) := by
  simp [len, h, newError]

theorem first_arity (args : List (Option Object)) (h : args.length ≠ 1) :
    first args = .ok (some (.Error
      ("wrong number of arguments. got=" ++ toString args.length ++ ", want=1"))) := by
  simp [first, h, newError]

theorem last_arity (args : List (Option Object)) (h : args.length ≠ 1) :
    last args = .ok (some (.Error
      ("wrong number of arguments. got=" ++ toString args.length ++ ", want=1"))) := by
  simp [last, h, newError]

theorem len_Array (elements : List Object) :
    len [some (.Array elements)] = .ok (some (.Integer (elements.length : Int))) := by
  simp [len]

theorem len_Str (value : String) :
    len [some (.Str value)] = .ok (some (.Integer (value.utf8ByteSize : Int))) := by
  simp [len]

theorem len_unsupported (arg : Object) (ha : ∀ es, arg ≠ .Array es) (hs : ∀ v, arg ≠ .Str v) :
    len [some arg] = .ok (some (.Error
      ("argument to `len` not supported. got=" ++ arg.typeTag))) := by
  cases arg with
  | Array es => exact absurd rfl (ha es)
  | Str v => exact absurd rfl (hs v)
  | _ => simp [len, newError]

/-- C12: for an argument list of exactly one value, `len` returns the Integer
of the number of elements of an Array and of the number of bytes of the text of
a String; so `len("") = 0`, `len("Hello, World!") = 13`, `len([]) = 0` and
`len([1,2,3]) = 3`.  The registry holds this function under `"len"`. -/
theorem len_spec (elements : List Object) (value : String) :
    (∃ b, builtin "len" = some b ∧ b.Fn = len) ∧
    len [some (.Array elements)] = .ok (some (.Integer (elements.length : Int))) ∧
    len [some (.Str value)] = .ok (some (.Integer (value.utf8ByteSize : Int))) ∧
    len [some (.Str "")] = .ok (some (.Integer 0)) ∧
    len [some (.Str "Hello, World!")] = .ok (some (.Integer 13)) ∧
    len [some (.Array [])] = .ok (some (.Integer 0)) ∧
    len [some (.Array [.Integer 1, .Integer 2, .Integer 3])] = .ok (some (.Integer 3)) := by
  refine ⟨⟨⟨len⟩, by simp [builtin], rfl⟩, len_Array elements, len_Str value, ?_, ?_, ?_, ?_⟩
  · rw [len_Str]; rfl
  · rw [len_Str]; rfl
  · rw [len_Array]; rfl
  · rw [len_Array]; rfl

/-- C13: `len` returns an Error value in exactly two cases.  With `n ≠ 1`
arguments the message is "wrong number of arguments. got=n, want=1", whatever
the arguments are; with one argument that is neither an Array nor a String it
is "argument to `len` not supported. got=TYPE", `TYPE` being the type
tag of the argument (`INTEGER` for `len(1)`).  In the other cases, one Array or
one String, the result is an Integer. -/
theorem len_errors (args : List (Option Object)) (vals : List Object) (arg : Object) :
    (args.length ≠ 1 → len args = .ok (some (.Error
      ("wrong number of arguments. got=" ++ toString args.length ++ ", want=1")))) ∧
    len [] = .ok (some (.Error "wrong number of arguments. got=0, want=1")) ∧
    len [some (.Str "1"), some (.Str "2")]
      = .ok (some (.Error "wrong number of arguments. got=2, want=1")) ∧
    ((∀ es, arg ≠ .Array es) → (∀ v, arg ≠ .Str v) →
      len [some arg] = .ok (some (.Error
        ("argument to `len` not supported. got=" ++ arg.typeTag)))) ∧
    len [some (.Integer 1)]
      = .ok (some (.Error "argument to `len` not supported. got=INTEGER")) ∧
    ((∃ msg, len (vals.map some) = .ok (some (.Error msg))) ↔
      (vals.length ≠ 1 ∨
        ∃ v, vals = [v] ∧ (∀ es, v ≠ .Array es) ∧ (∀ t, v ≠ .Str t))) ∧
    (¬ (∃ msg, len (vals.map some) = .ok (some (.Error msg))) →
      ∃ n : Int, len (vals.map some) = .ok (some (.Integer n))) := by
  have hiff : (∃ msg, len (vals.map some) = .ok (some (.Error msg))) ↔
      (vals.length ≠ 1 ∨
        ∃ v, vals = [v] ∧ (∀ es, v ≠ .Array es) ∧ (∀ t, v ≠ .Str t)) := by
    constructor
    · rintro ⟨msg, h⟩
      by_cases hn : vals.length = 1
      · right
        obtain ⟨v, hv⟩ := List.length_eq_one.mp hn
        subst hv
        refine ⟨v, rfl, ?_, ?_⟩
        · intro es hes
          subst hes
          simp [len] at h
        · intro t ht
          subst ht
          simp [len] at h
      · exact Or.inl hn
    · rintro (hn | ⟨v, hv, ha, hs⟩)
      · exact ⟨_, len_arity _ (by simpa using hn)⟩
      · subst hv
        exact ⟨_, len_unsupported v ha hs⟩
  refine ⟨len_arity args, ?_, ?_, len_unsupported arg, ?_, hiff, ?_⟩
  · rw [len_arity [] (by decide)]; rfl
  · rw [len_arity _ (by decide)]; rfl
  · rw [len_unsupported _ (by intro es h; cases h) (by intro v h; cases h)]; rfl
  · intro hno
    rw [hiff] at hno
    simp only [not_or, not_not, not_exists, not_and] at hno
    obtain ⟨hn, hv⟩ := hno
    obtain ⟨v, hvals⟩ := List.length_eq_one.mp hn
    subst hvals
    cases v with
    | Array es => exact ⟨_, len_Array es⟩
    | Str t => exact ⟨_, len_Str t⟩
    | Integer i =>
      exact absurd (hv _ rfl (by intro es h; cases h)) (by simp)
    | Boolean b =>
      exact absurd (hv _ rfl (by intro es h; cases h)) (by simp)
    | Null =>
      exact absurd (hv _ rfl (by intro es h; cases h)) (by simp)
    | Error m =>
      exact absurd (hv _ rfl (by intro es h; cases h)) (by simp)
    | Other tag =>
      exact absurd (hv _ rfl (by intro es h; cases h)) (by simp)

/-- The call `len(true)` gives the Error for the tag `BOOLEAN`. -/
theorem len_errors_witness :
    ((∀ es, Object.Boolean true ≠ .Array es) ∧ (∀ v, Object.Boolean true ≠ .Str v)) ∧
    len [some (.Boolean true)]
      = .ok (some (.Error "argument to `len` not supported. got=BOOLEAN")) :=
  ⟨⟨fun es h => (by cases h), fun v h => (by cases h)⟩,
   (len_errors [] [] (.Boolean true)).2.2.2.1 (fun es h => (by cases h))
     (fun v h => (by cases h))⟩

theorem first_nonArray (arg : Object) (ha : ∀ es, arg ≠ .Array es) :
    first [some arg] = .ok (some (.Error
      ("'first' only accepts an array as an argument. got=" ++ arg.typeTag))) := by
  cases arg with
  | Array es => exact absurd rfl (ha es)
  | _ => simp [first, newError]

theorem last_nonArray (arg : Object) (ha : ∀ es, arg ≠ .Array es) :
    last [some arg] = .ok (some (.Error
      ("'last' only accepts an array as an argument. got=" ++ arg.typeTag))) := by
  cases arg with
  | Array es => exact absurd rfl (ha es)
  | _ => simp [last, newError]

theorem first_Array (elements : List Object) (h : elements ≠ []) :
    first [some (.Array elements)] = .ok elements[0]? := by
  cases elements with
  | nil => exact absurd rfl h
  | cons e es => simp [first]

theorem last_Array (elements : List Object) (h : elements ≠ []) :
    last [some (.Array elements)] = .ok elements[elements.length - 1]? := by
  have hlen : elements.length ≠ 0 := by
    intro h0
    exact h (List.length_eq_zero.mp h0)
  have hlt : elements.length - 1 < elements.length := by omega
  simp [last, hlen, List.getElem?_eq_getElem hlt]

/-- C14: `first` applied to one Array returns the element at index 0 when the
array is not empty and `NULL` when it is empty; applied to `n ≠ 1` arguments it
returns the Error "wrong number of arguments. got=n, want=1"; applied to one
argument that is not an Array it returns the Error "'first' only accepts an
array as an argument. got=TYPE".  The registry holds this function under
`"first"`. -/
theorem first_spec (args : List (Option Object)) (arg e : Object) (es : List Object) :
    (∃ b, builtin "first" = some b ∧ b.Fn = first) ∧
    first [some (.Array (e :: es))] = .ok (some e) ∧
    (∀ elements : List Object, elements ≠ [] →
      first [some (.Array elements)] = .ok elements[0]?) ∧
    first [some (.Array [])] = .ok (some .Null) ∧
    NULL = some .Null ∧
    (args.length ≠ 1 → first args = .ok (some (.Error
      ("wrong number of arguments. got=" ++ toString args.length ++ ", want=1")))) ∧
    first [] = .ok (some (.Error "wrong number of arguments. got=0, want=1")) ∧
    ((∀ elements, arg ≠ .Array elements) →
      first [some arg] = .ok (some (.Error
        ("'first' only accepts an array as an argument. got=" ++ arg.typeTag)))) ∧
    first [some (.Integer 1)]
      = .ok (some (.Error "'first' only accepts an array as an argument. got=INTEGER")) := by
  refine ⟨⟨⟨first⟩, by simp [builtin], rfl⟩, ?_, first_Array, ?_, rfl, first_arity args, ?_,
    first_nonArray arg, ?_⟩
  · rw [first_Array _ (by simp)]; simp
  · simp [first, NULL]
  · rw [first_arity [] (by decide)]; rfl
  · rw [first_nonArray _ (by intro es h; cases h)]; rfl

/-- The call `first([1, 2, 3])` returns `1`, and `first("a")` the Error for the
tag `STRING`. -/
theorem first_spec_witness :
    ([Object.Integer 1, .Integer 2, .Integer 3] ≠ []) ∧
    first [some (.Array [.Integer 1, .Integer 2, .Integer 3])] = .ok (some (.Integer 1)) ∧
    first [some (.Str "a")]
      = .ok (some (.Error "'first' only accepts an array as an argument. got=STRING")) :=
  ⟨by simp,
   (first_spec [] (.Str "a") (.Integer 1) [.Integer 2, .Integer 3]).2.2.1 _ (by simp),
   (first_spec [] (.Str "a") (.Integer 1) [.Integer 2, .Integer 3]).2.2.2.2.2.2.2.1
     (fun es h => (by cases h))⟩

/-- C15: `last` applied to one Array returns the element at index `length - 1`
when the array is not empty and `NULL` when it is empty; applied to `n ≠ 1`
arguments it returns the Error "wrong number of arguments. got=n, want=1";
applied to one argument that is not an Array it returns the Error "'last' only
accepts an array as an argument. got=TYPE".  The registry holds this function
under `"last"`. -/
theorem last_spec (args : List (Option Object)) (arg : Object) :
    (∃ b, builtin "last" = some b ∧ b.Fn = last) ∧
    (∀ elements : List Object, elements ≠ [] →
      last [some (.Array elements)] = .ok elements[elements.length - 1]? ∧
      ∃ e, elements[elements.length - 1]? = some e) ∧
    last [some (.Array [.Integer 1, .Integer 2, .Integer 3])] = .ok (some (.Integer 3)) ∧
    last [some (.Array [])] = .ok (some .Null) ∧
    NULL = some .Null ∧
    (args.length ≠ 1 → last args = .ok (some (.Error
      ("wrong number of arguments. got=" ++ toString args.length ++ ", want=1")))) ∧
    last [] = .ok (some (.Error "wrong number of arguments. got=0, want=1")) ∧
    ((∀ elements, arg ≠ .Array elements) →
      last [some arg] = .ok (some (.Error
        ("'last' only accepts an array as an argument. got=" ++ arg.typeTag)))) ∧
    last [some (.Integer 1)]
      = .ok (some (.Error "'last' only accepts an array as an argument. got=INTEGER")) := by
  refine ⟨⟨⟨last⟩, by simp [builtin], rfl⟩, ?_, ?_, ?_, rfl, last_arity args, ?_,
    last_nonArray arg, ?_⟩
  · intro elements h
    refine ⟨last_Array elements h, ?_⟩
    have hlen : elements.length ≠ 0 := fun h0 => h (List.length_eq_zero.mp h0)
    exact ⟨_, List.getElem?_eq_getElem (by omega)⟩
  · rw [last_Array _ (by simp)]; simp
  · simp [last, NULL]
  · rw [last_arity [] (by decide)]; rfl
  · rw [last_nonArray _ (by intro es h; cases h)]; rfl

/-- The call `last([4, 5])` returns `5`, and `last(true)` the Error for the tag
`BOOLEAN`. -/
theorem last_spec_witness :
    ([Object.Integer 4, .Integer 5] ≠ []) ∧
    last [some (.Array [.Integer 4, .Integer 5])] = .ok (some (.Integer 5)) ∧
    last [some (.Boolean true)]
      = .ok (some (.Error "'last' only accepts an array as an argument. got=BOOLEAN")) :=
  ⟨by simp,
   ((last_spec [] (.Boolean true)).2.1 _ (by simp)).1,
   (last_spec [] (.Boolean true)).2.2.2.2.2.2.2.1 (fun es h => (by cases h))⟩

/-! ## The builtins return on every argument list -/

theorem len_returns (args : List (Option Object)) :
    (∃ v : Object, len args = .ok (some v)) ∨ args = [none] := by
  by_cases hn : args.length = 1
  · obtain ⟨a, ha⟩ := List.length_eq_one.mp hn
    subst ha
    cases a with
    | none => exact Or.inr rfl
    | some v =>
      left
      by_cases hA : ∃ es, v = .Array es
      · obtain ⟨es, hes⟩ := hA
        subst hes
        exact ⟨_, len_Array es⟩
      · by_cases hS : ∃ t, v = .Str t
        · obtain ⟨t, ht⟩ := hS
          subst ht
          exact ⟨_, len_Str t⟩
        · exact ⟨_, len_unsupported v (fun es h => hA ⟨es, h⟩) (fun t h => hS ⟨t, h⟩)⟩
  · exact Or.inl ⟨_, len_arity args hn⟩

theorem first_returns (args : List (Option Object)) :
    (∃ v : Object, first args = .ok (some v)) ∨ args = [none] := by
  by_cases hn : args.length = 1
  · obtain ⟨a, ha⟩ := List.length_eq_one.mp hn
    subst ha
    cases a with
    | none => exact Or.inr rfl
    | some v =>
      left
      by_cases hA : ∃ es, v = .Array es
      · obtain ⟨es, hes⟩ := hA
        subst hes
        cases es with
        | nil => exact ⟨.Null, by simp [first, NULL]⟩
        | cons e es => exact ⟨e, by simp [first]⟩
      · exact ⟨_, first_nonArray v (fun es h => hA ⟨es, h⟩)⟩
  · exact Or.inl ⟨_, first_arity args hn⟩

theorem last_returns (args : List (Option Object)) :
    (∃ v : Object, last args = .ok (some v)) ∨ args = [none] := by
  by_cases hn : args.length = 1
  · obtain ⟨a, ha⟩ := List.length_eq_one.mp hn
    subst ha
    cases a with
    | none => exact Or.inr rfl
    | some v =>
      left
      by_cases hA : ∃ es, v = .Array es
      · obtain ⟨es, hes⟩ := hA
        subst hes
        by_cases hes : es = []
        · subst hes
          exact ⟨.Null, by simp [last, NULL]⟩
        · have hlen : es.length ≠ 0 := fun h0 => hes (List.length_eq_zero.mp h0)
          have hlt : es.length - 1 < es.length := by omega
          exact ⟨es[es.length - 1], by
            rw [last_Array es hes, List.getElem?_eq_getElem hlt]⟩
      · exact ⟨_, last_nonArray v (fun es h => hA ⟨es, h⟩)⟩
  · exact Or.inl ⟨_, last_arity args hn⟩

theorem builtin_cases (name : String) (b : Builtin) (h : builtin name = some b) :
    (name = "len" ∧ b.Fn = len) ∨ (name = "first" ∧ b.Fn = first) ∨
      (name = "last" ∧ b.Fn = last) := by
  unfold builtin at h
  split at h
  · rename_i hn
    cases h
    exact Or.inl ⟨hn, rfl⟩
  · split at h
    · rename_i hn
      cases h
      exact Or.inr (Or.inl ⟨hn, rfl⟩)
    · split at h
      · rename_i hn
        cases h
        exact Or.inr (Or.inr ⟨hn, rfl⟩)
      · cases h

/-- C16: every builtin of the registry is total on Values: for every list of
argument Values, of any length and of any kinds, it returns a Value (which may
be an Error value) and does not fault; so do `len`, `first` and `last`.  On
lists of interface values the only call that faults is the one with the single
argument nil. -/
theorem builtins_total (name : String) (b : Builtin) (vals : List Object)
    (h : builtin name = some b) :
    (∃ v : Object, b.Fn (vals.map some) = .ok (some v)) ∧
    (∃ v : Object, len (vals.map some) = .ok (some v)) ∧
    (∃ v : Object, first (vals.map some) = .ok (some v)) ∧
    (∃ v : Object, last (vals.map some) = .ok (some v)) ∧
    (∀ (args : List (Option Object)) (p : vm.Panic), b.Fn args = .error p → args = [none]) := by
  have hne : vals.map some ≠ [none] := by
    intro hm
    cases vals with
    | nil => simp at hm
    | cons v vs => simp at hm
  have hlen := (len_returns (vals.map some)).resolve_right hne
  have hfirst := (first_returns (vals.map some)).resolve_right hne
  have hlast := (last_returns (vals.map some)).resolve_right hne
  have hall : ∀ args : List (Option Object),
      (∃ v : Object, b.Fn args = .ok (some v)) ∨ args = [none] := by
    intro args
    rcases builtin_cases name b h with ⟨_, hb⟩ | ⟨_, hb⟩ | ⟨_, hb⟩
    · rw [hb]; exact len_returns args
    · rw [hb]; exact first_returns args
    · rw [hb]; exact last_returns args
  refine ⟨(hall _).resolve_right hne, hlen, hfirst, hlast, ?_⟩
  intro args p hp
  rcases hall args with ⟨v, hv⟩ | hnil
  · rw [hv] at hp
    cases hp
  · exact hnil

/-- The builtin `last` on the empty array, the argument list on which an
unguarded index would be out of range, returns `NULL`. -/
theorem builtins_total_witness :
    (∃ b, builtin "last" = some b ∧ b.Fn = last) ∧
    (∃ v : Object, last ([Object.Array []].map some) = .ok (some v)) ∧
    last [some (.Array [])] = .ok (some .Null) :=
  ⟨⟨⟨last⟩, by simp [builtin], rfl⟩,
   (builtins_total "last" ⟨last⟩ [.Array []] (by simp [builtin])).2.2.2.1,
   by simp [last, NULL]⟩

/-- C17, the registry at fault: `builtin` has no entry under `"push"`, so the
lookup of `push` gives nothing to call. -/
theorem builtin_push_missing : builtin "push" = none := by
  simp [builtin]

/-- C18, the registry at fault: `builtin` has no entry under `"rest"`, so the
lookup of `rest` gives nothing to call. -/
theorem builtin_rest_missing : builtin "rest" = none := by
  simp [builtin]

end evaluator

namespace parser

open token lexer ast

/-! ## The parser on a token stream -/

theorem New_eq_parserAt (toks : List Token) : New ⟨toks⟩ = parserAt toks [] := by
  match toks with
  | [] => rfl
  | [_] => rfl
  | _ :: _ :: _ => rfl

theorem nextToken_parserAt_cons (t : Token) (ts : List Token) (errors : List ErrorString) :
    nextToken (parserAt (t :: ts) errors) = parserAt ts errors := by
  match ts with
  | [] => rfl
  | [_] => rfl
  | [_, _] => rfl
  | _ :: _ :: _ :: _ => rfl

theorem nextToken_parserAt_nil (errors : List ErrorString) :
    nextToken (parserAt [] errors) = parserAt [] errors := rfl

theorem currToken_parserAt_cons (t : Token) (ts : List Token) (errors : List ErrorString) :
    (parserAt (t :: ts) errors).currToken = t := rfl

theorem peekToken_parserAt_cons (t u : Token) (ts : List Token) (errors : List ErrorString) :
    (parserAt (t :: u :: ts) errors).peekToken = u := rfl

/-- The skipping loop stops at the first semicolon of the stream, when it
has one and the bound allows for the tokens in front of it. -/
theorem skipToSemicolon_found (semi : Token) (rest : List Token) (errors : List ErrorString)
    (hsemi : semi.Typ = .SEMICOLON) :
    ∀ (body : List Token) (fuel : Nat), (∀ t ∈ body, t.Typ ≠ .SEMICOLON) →
      body.length + 1 ≤ fuel →
      skipToSemicolon fuel (parserAt (body ++ semi :: rest) errors)
        = some (parserAt (semi :: rest) errors) := by
  intro body
  induction body with
  | nil =>
    intro fuel _ hfuel
    obtain ⟨n, hn⟩ : ∃ n, fuel = n + 1 := ⟨fuel - 1, by simp at hfuel; omega⟩
    subst hn
    simp [skipToSemicolon, currToken_parserAt_cons, hsemi]
  | cons b body ih =>
    intro fuel hbody hfuel
    obtain ⟨n, hn⟩ : ∃ n, fuel = n + 1 := ⟨fuel - 1, by simp at hfuel; omega⟩
    subst hn
    have hb : b.Typ ≠ .SEMICOLON := hbody b (List.mem_cons_self _ _)
    simp only [skipToSemicolon, List.cons_append, currToken_parserAt_cons, ne_eq, hb,
      not_false_eq_true, if_true, nextToken_parserAt_cons]
    exact ih n (fun t ht => hbody t (List.mem_cons_of_mem _ ht))
      (by simp at hfuel ⊢; omega)

/-- One pass of the loop of `ParseProgram` over `return body ;`. -/
theorem parseLoop_return (r semi : Token) (body rest : List Token)
    (errors : List ErrorString) (acc : List Statement) (fuel : Nat)
    (hr : r.Typ = .RETURN) (hbody : ∀ t ∈ body, t.Typ ≠ .SEMICOLON)
    (hsemi : semi.Typ = .SEMICOLON) (hfuel : body.length + 1 ≤ fuel) :
    parseLoop (fuel + 1) (parserAt (r :: (body ++ semi :: rest)) errors) acc
      = parseLoop fuel (parserAt rest errors) (acc ++ [.Return (some { Token := r })]) := by
  have hskip := skipToSemicolon_found semi rest errors hsemi body fuel hbody hfuel
  simp [parseLoop, parseStatement, parseReturnStatement, currToken_parserAt_cons, hr,
    nextToken_parserAt_cons, hskip]

/-- One pass of the loop of `ParseProgram` over `let IDENT = body ;`. -/
theorem parseLoop_let (l i a semi : Token) (body rest : List Token)
    (errors : List ErrorString) (acc : List Statement) (fuel : Nat)
    (hl : l.Typ = .LET) (hi : i.Typ = .IDENT) (ha : a.Typ = .ASSIGN)
    (hbody : ∀ t ∈ body, t.Typ ≠ .SEMICOLON)
    (hsemi : semi.Typ = .SEMICOLON) (hfuel : body.length + 2 ≤ fuel) :
    parseLoop (fuel + 1) (parserAt (l :: i :: a :: (body ++ semi :: rest)) errors) acc
      = parseLoop fuel (parserAt rest errors)
          (acc ++ [.Let (some { Token := l, Name := some { Token := i, Value := i.Literal } })])
    := by
  have hskip := skipToSemicolon_found semi rest errors hsemi (a :: body) fuel
    (by
      intro t ht
      rcases List.mem_cons.mp ht with h | h
      · rw [h, ha]; decide
      · exact hbody t h)
    (by simp; omega)
  simp only [List.cons_append] at hskip
  simp [parseLoop, parseStatement, parseLetStatement, expectPeek, currToken_parserAt_cons,
    peekToken_parserAt_cons, hl, hi, ha, nextToken_parserAt_cons, hskip]

/-- The loop of `ParseProgram` ends on a stream that starts with an `EOF`
token. -/
theorem parseLoop_eof (eof : Token) (rest : List Token) (errors : List ErrorString)
    (acc : List Statement) (fuel : Nat) (heof : eof.Typ = .EOF) :
    parseLoop (fuel + 1) (parserAt (eof :: rest) errors) acc
      = some (parserAt (eof :: rest) errors, acc) := by
  simp [parseLoop, currToken_parserAt_cons, heof]

/-- The loop of `ParseProgram` over well-formed statements followed by `EOF`. -/
theorem parseLoop_sourceTokens (eof : Token) (tail : List Token) (heof : eof.Typ = .EOF) :
    ∀ (stmts : List SourceStatement) (errors : List ErrorString) (acc : List Statement)
      (fuel : Nat), (∀ st ∈ stmts, st.WellFormed) →
      (sourceTokens stmts).length + 1 ≤ fuel →
      parseLoop fuel (parserAt (sourceTokens stmts ++ eof :: tail) errors) acc
        = some (parserAt (eof :: tail) errors, acc ++ stmts.map SourceStatement.parsed) := by
  intro stmts
  induction stmts with
  | nil =>
    intro errors acc fuel _ hfuel
    obtain ⟨n, hn⟩ : ∃ n, fuel = n + 1 := ⟨fuel - 1, by omega⟩
    subst hn
    simpa [sourceTokens] using parseLoop_eof eof tail errors acc n heof
  | cons st stmts ih =>
    intro errors acc fuel hwf hfuel
    obtain ⟨n, hn⟩ : ∃ n, fuel = n + 1 := ⟨fuel - 1, by omega⟩
    subst hn
    have hst := hwf st (List.mem_cons_self _ _)
    have hrest : ∀ s ∈ stmts, s.WellFormed := fun s hs => hwf s (List.mem_cons_of_mem _ hs)
    cases st with
    | letStmt l i a body semi =>
      obtain ⟨hl, hi, ha, hbody, hsemi⟩ := hst
      simp only [sourceTokens, SourceStatement.tokens, List.length_append, List.length_cons,
        List.length_nil] at hfuel
      have hshape : sourceTokens (.letStmt l i a body semi :: stmts) ++ eof :: tail
          = l :: i :: a :: (body ++ semi :: (sourceTokens stmts ++ eof :: tail)) := by
        simp [sourceTokens, SourceStatement.tokens]
      rw [hshape, parseLoop_let l i a semi body _ errors acc n hl hi ha hbody hsemi (by omega),
        ih errors _ n hrest (by omega)]
      simp [SourceStatement.parsed]
    | returnStmt r body semi =>
      obtain ⟨hr, hbody, hsemi⟩ := hst
      simp only [sourceTokens, SourceStatement.tokens, List.length_append, List.length_cons,
        List.length_nil] at hfuel
      have hshape : sourceTokens (.returnStmt r body semi :: stmts) ++ eof :: tail
          = r :: (body ++ semi :: (sourceTokens stmts ++ eof :: tail)) := by
        simp [sourceTokens, SourceStatement.tokens]
      rw [hshape, parseLoop_return r semi body _ errors acc n hr hbody hsemi (by omega),
        ih errors _ n hrest (by omega)]
      simp [SourceStatement.parsed]

/-- C23: for a token stream that is a concatenation of well-formed statements
`let IDENT = body ;` and `return body ;` (bodies without semicolon) followed by
`EOF`, `ParseProgram` returns, for every bound on its loops that is at least
the number of tokens, the program that has exactly one statement for each input
statement, in source order, the `Name` of each let statement being the
identifier token after `let` with the literal of that token as `Value`; the
list of errors of the parser stays empty. -/
theorem ParseProgram_statements (stmts : List SourceStatement) (eof : Token)
    (hwf : ∀ st ∈ stmts, st.WellFormed) (heof : eof.Typ = .EOF) (fuel : Nat)
    (hfuel : (sourceTokens stmts ++ [eof]).length ≤ fuel) :
    ∃ p1, ParseProgram fuel (New ⟨sourceTokens stmts ++ [eof]⟩)
        = some (p1, ⟨stmts.map SourceStatement.parsed⟩) ∧
      Errors p1 = [] ∧
      (stmts.map SourceStatement.parsed).length = stmts.length := by
  have h := parseLoop_sourceTokens eof [] heof stmts [] [] fuel hwf
    (by simpa using hfuel)
  refine ⟨parserAt [eof] [], ?_, rfl, by simp⟩
  simp [ParseProgram, New_eq_parserAt, h]

/-- The program of `let x = 5; return 5;` has a let statement named `x` and a
return statement, and no errors. -/
theorem ParseProgram_statements_witness :
    (∀ st ∈ [SourceStatement.letStmt ⟨.LET, "let"⟩ ⟨.IDENT, "x"⟩ ⟨.ASSIGN, "="⟩
        [⟨.OTHER "INT", "5"⟩] ⟨.SEMICOLON, ";"⟩,
      SourceStatement.returnStmt ⟨.RETURN, "return"⟩ [⟨.OTHER "INT", "5"⟩] ⟨.SEMICOLON, ";"⟩],
      st.WellFormed) ∧
    eofToken.Typ = .EOF ∧
    ∃ p1, ParseProgram 9 (New ⟨[⟨.LET, "let"⟩, ⟨.IDENT, "x"⟩, ⟨.ASSIGN, "="⟩,
        ⟨.OTHER "INT", "5"⟩, ⟨.SEMICOLON, ";"⟩, ⟨.RETURN, "return"⟩, ⟨.OTHER "INT", "5"⟩,
        ⟨.SEMICOLON, ";"⟩, eofToken]⟩)
      = some (p1, ⟨[.Let (some { Token := ⟨.LET, "let"⟩,
                                 Name := some { Token := ⟨.IDENT, "x"⟩, Value := "x" } }),
                    .Return (some { Token := ⟨.RETURN, "return"⟩ })]⟩) ∧
      Errors p1 = [] := by
  have hwf : ∀ st ∈ [SourceStatement.letStmt ⟨.LET, "let"⟩ ⟨.IDENT, "x"⟩ ⟨.ASSIGN, "="⟩
        [⟨.OTHER "INT", "5"⟩] ⟨.SEMICOLON, ";"⟩,
      SourceStatement.returnStmt ⟨.RETURN, "return"⟩ [⟨.OTHER "INT", "5"⟩] ⟨.SEMICOLON, ";"⟩],
      st.WellFormed := by
    intro st hst
    simp only [List.mem_cons, List.mem_singleton, List.not_mem_nil, or_false] at hst
    rcases hst with h | h <;> subst h <;> simp [SourceStatement.WellFormed]
  refine ⟨hwf, rfl, ?_⟩
  obtain ⟨p1, h1, h2, _⟩ := ParseProgram_statements _ eofToken hwf rfl 9 (by decide)
  exact ⟨p1, h1, h2⟩

/-! ## When the parser comes to an end -/

theorem skipToSemicolon_det :
    ∀ (n m : Nat) (p a b : Parser),
      skipToSemicolon n p = some a → skipToSemicolon m p = some b → a = b := by
  intro n
  induction n with
  | zero =>
    intro m p a b ha _
    simp [skipToSemicolon] at ha
  | succ n ih =>
    intro m p a b ha hb
    cases m with
    | zero => simp [skipToSemicolon] at hb
    | succ m =>
      simp only [skipToSemicolon] at ha hb
      by_cases hc : p.currToken.Typ ≠ .SEMICOLON
      · rw [if_pos hc] at ha hb
        exact ih m _ a b ha hb
      · rw [if_neg hc] at ha hb
        exact (Option.some.inj ha).symm.trans (Option.some.inj hb)

theorem parseStatement_det (n m : Nat) (p : Parser) (x y : Parser × Option Statement)
    (hx : parseStatement n p = some x) (hy : parseStatement m p = some y) : x = y := by
  unfold parseStatement at hx hy
  by_cases hl : p.currToken.Typ = .LET
  · rw [if_pos hl] at hx hy
    unfold parseLetStatement at hx hy
    simp only at hx hy
    by_cases h1 : (expectPeek p .IDENT).2 = true
    · simp only [h1, Bool.not_true, Bool.false_eq_true, if_false] at hx hy
      by_cases h2 : (expectPeek (expectPeek p .IDENT).1 .ASSIGN).2 = true
      · simp only [h2, Bool.not_true, Bool.false_eq_true, if_false] at hx hy
        cases hn : skipToSemicolon n (expectPeek (expectPeek p .IDENT).1 .ASSIGN).1 with
        | none => simp [hn] at hx
        | some a =>
          cases hm : skipToSemicolon m (expectPeek (expectPeek p .IDENT).1 .ASSIGN).1 with
          | none => simp [hm] at hy
          | some b =>
            have hab := skipToSemicolon_det n m _ a b hn hm
            subst hab
            simp only [hn] at hx
            simp only [hm] at hy
            exact (Option.some.inj hx).symm.trans (Option.some.inj hy)
      · simp only [h2, Bool.not_false, if_true] at hx hy
        exact (Option.some.inj hx).symm.trans (Option.some.inj hy)
    · simp only [h1, Bool.not_false, if_true] at hx hy
      exact (Option.some.inj hx).symm.trans (Option.some.inj hy)
  · rw [if_neg hl] at hx hy
    by_cases hr : p.currToken.Typ = .RETURN
    · rw [if_pos hr] at hx hy
      unfold parseReturnStatement at hx hy
      simp only at hx hy
      cases hn : skipToSemicolon n (nextToken p) with
      | none => simp [hn] at hx
      | some a =>
        cases hm : skipToSemicolon m (nextToken p) with
        | none => simp [hm] at hy
        | some b =>
          have hab := skipToSemicolon_det n m _ a b hn hm
          subst hab
          simp only [hn] at hx
          simp only [hm] at hy
          exact (Option.some.inj hx).symm.trans (Option.some.inj hy)
    · rw [if_neg hr] at hx hy
      exact (Option.some.inj hx).symm.trans (Option.some.inj hy)

theorem eofToken_ne_SEMICOLON : eofToken.Typ ≠ .SEMICOLON := by decide

/-- A token that comes after the current token of `nextToken p` is a token that
the lexer of `p` has yet to yield, or the `EOF` of the lexer. -/
theorem mem_upcoming_nextToken (p : Parser) (t : Token) (h : t ∈ upcoming (nextToken p)) :
    t ∈ p.l.input ∨ t = eofToken := by
  unfold upcoming nextToken Lexer.NextToken at h
  cases hin : p.l.input with
  | nil =>
    simp only [hin, List.mem_cons] at h
    rcases h with h | h
    · exact Or.inr h
    · simp at h
  | cons u us =>
    simp only [hin, List.mem_cons] at h
    exact Or.inl (List.mem_cons.mpr h)

/-- When the skipping loop comes to its end, the current token or a token after
it is a semicolon. -/
theorem skipToSemicolon_some_mem :
    ∀ (n : Nat) (p p1 : Parser), skipToSemicolon n p = some p1 →
      ∃ t ∈ p.currToken :: upcoming p, t.Typ = .SEMICOLON := by
  intro n
  induction n with
  | zero =>
    intro p p1 h
    simp [skipToSemicolon] at h
  | succ n ih =>
    intro p p1 h
    simp only [skipToSemicolon] at h
    by_cases hc : p.currToken.Typ ≠ .SEMICOLON
    · rw [if_pos hc] at h
      obtain ⟨t, ht, hsemi⟩ := ih (nextToken p) p1 h
      rcases List.mem_cons.mp ht with h1 | h1
      · refine ⟨t, ?_, hsemi⟩
        rw [h1]
        exact List.mem_cons_of_mem _ (List.mem_cons_self _ _)
      · rcases mem_upcoming_nextToken p t h1 with h2 | h2
        · exact ⟨t, List.mem_cons_of_mem _ (List.mem_cons_of_mem _ h2), hsemi⟩
        · rw [h2] at hsemi
          exact absurd hsemi eofToken_ne_SEMICOLON
    · exact ⟨p.currToken, List.mem_cons_self _ _, not_not.mp hc⟩

/-- When the loop of `ParseProgram` comes to its end from `p`, a `return` or a
`let IDENT =` at the current token of `p` is followed by a semicolon. -/
theorem parseLoop_some_followed (fuel : Nat) (p : Parser) (acc : List Statement)
    (h : (parseLoop fuel p acc).isSome) : FollowedBySemicolon p := by
  cases fuel with
  | zero => simp [parseLoop] at h
  | succ n =>
    constructor
    · intro hr
      have hne : p.currToken.Typ ≠ .EOF := by rw [hr]; decide
      have hnl : ¬ p.currToken.Typ = .LET := by rw [hr]; decide
      simp only [parseLoop, hne, ne_eq, not_false_eq_true, if_true, parseStatement, hnl,
        if_false, hr, parseReturnStatement] at h
      cases hs : skipToSemicolon n (nextToken p) with
      | none => simp [hs] at h
      | some p1 =>
        obtain ⟨t, ht, hsemi⟩ := skipToSemicolon_some_mem n _ p1 hs
        rcases List.mem_cons.mp ht with h1 | h1
        · refine ⟨t, ?_, hsemi⟩
          rw [h1]
          exact List.mem_cons_self _ _
        · rcases mem_upcoming_nextToken p t h1 with h2 | h2
          · exact ⟨t, List.mem_cons_of_mem _ h2, hsemi⟩
          · rw [h2] at hsemi
            exact absurd hsemi eofToken_ne_SEMICOLON
    · intro hl hi a rest hin ha
      have hne : p.currToken.Typ ≠ .EOF := by rw [hl]; decide
      have hpeek2 : (nextToken p).peekToken = a := by
        simp [nextToken, Lexer.NextToken, hin]
      have hin2 : (nextToken p).l.input = rest := by
        simp [nextToken, Lexer.NextToken, hin]
      have hcur3 : (nextToken (nextToken p)).currToken = a := by
        show (nextToken p).peekToken = a
        exact hpeek2
      simp only [parseLoop, hne, ne_eq, not_false_eq_true, if_true, parseStatement, hl,
        parseLetStatement, expectPeek, hi, Bool.not_true, Bool.false_eq_true, if_false,
        hpeek2, ha] at h
      cases hs : skipToSemicolon n (nextToken (nextToken p)) with
      | none => simp [hs] at h
      | some p1 =>
        obtain ⟨t, ht, hsemi⟩ := skipToSemicolon_some_mem n _ p1 hs
        rcases List.mem_cons.mp ht with h1 | h1
        · rw [h1, hcur3, ha] at hsemi
          exact absurd hsemi (by decide)
        · rcases mem_upcoming_nextToken (nextToken p) t h1 with h2 | h2
          · rw [hin2] at h2
            exact ⟨t, h2, hsemi⟩
          · rw [h2] at hsemi
            exact absurd hsemi eofToken_ne_SEMICOLON

/-- When the loop of `ParseProgram` comes to its end from `p0`, it comes to its
end from every state in which it tests its condition. -/
theorem parseLoop_some_of_dispatches (p0 p : Parser) (hd : Dispatches p0 p)
    (h : ∃ fuel acc, (parseLoop fuel p0 acc).isSome) :
    ∃ fuel acc, (parseLoop fuel p acc).isSome := by
  induction hd with
  | start => exact h
  | next q q1 stmt fuel _ hne hst ih =>
    obtain ⟨F, acc, hF⟩ := ih
    cases F with
    | zero => simp [parseLoop] at hF
    | succ n =>
      simp only [parseLoop, hne, ne_eq, not_false_eq_true, if_true] at hF
      cases hs : parseStatement n q with
      | none => simp [hs] at hF
      | some x =>
        have hx := parseStatement_det n fuel q x (q1, stmt) hs hst
        subst hx
        simp only [hs] at hF
        cases stmt with
        | none => exact ⟨n, acc, hF⟩
        | some st => exact ⟨n, acc ++ [st], hF⟩

/-- A stream that has a semicolon splits at its first one. -/
theorem exists_first_semicolon :
    ∀ (ts : List Token), (∃ t ∈ ts, t.Typ = .SEMICOLON) →
      ∃ body semi rest, ts = body ++ semi :: rest ∧
        (∀ t ∈ body, t.Typ ≠ .SEMICOLON) ∧ semi.Typ = .SEMICOLON := by
  intro ts
  induction ts with
  | nil =>
    rintro ⟨t, ht, _⟩
    simp at ht
  | cons u us ih =>
    rintro ⟨t, ht, hsemi⟩
    by_cases hu : u.Typ = .SEMICOLON
    · exact ⟨[], u, us, rfl, by simp, hu⟩
    · rcases List.mem_cons.mp ht with h | h
      · rw [h] at hsemi
        exact absurd hsemi hu
      · obtain ⟨body, semi, rest, hsplit, hbody, hs⟩ := ih ⟨t, h, hsemi⟩
        refine ⟨u :: body, semi, rest, by rw [hsplit]; rfl, ?_, hs⟩
        intro x hx
        rcases List.mem_cons.mp hx with h1 | h1
        · rw [h1]; exact hu
        · exact hbody x h1

theorem nextToken_peekError (t : Token) (ts : List Token) (errors : List ErrorString)
    (ty : TokenType) :
    nextToken (peekError (parserAt (t :: ts) errors) ty)
      = parserAt ts (peekError (parserAt (t :: ts) errors) ty).errors := by
  have h : peekError (parserAt (t :: ts) errors) ty
      = parserAt (t :: ts) (peekError (parserAt (t :: ts) errors) ty).errors := rfl
  rw [h]
  exact nextToken_parserAt_cons t ts _

theorem dispatches_trans {p0 p1 p2 : Parser} (h1 : Dispatches p0 p1)
    (h2 : Dispatches p1 p2) : Dispatches p0 p2 := by
  induction h2 with
  | start => exact h1
  | next q q1 stmt fuel _ hne hst ih => exact Dispatches.next q q1 stmt fuel ih hne hst

/-- One pass of the loop of `ParseProgram` on a stream whose first token is not
`EOF`, when a `return` or a `let IDENT =` at its start is followed by a
semicolon: for every bound that is large enough the statement is parsed, and the
loop goes on with what is left of the stream, a shorter one. -/
theorem parseStatement_parserAt (t : Token) (ts : List Token) (errors : List ErrorString)
    (hfbs : FollowedBySemicolon (parserAt (t :: ts) errors)) :
    ∃ (left : List Token) (errors1 : List ErrorString) (N : Nat) (p1 : Parser)
      (stmt : Option Statement),
      left.length ≤ ts.length ∧
      (∀ fuel, N ≤ fuel → parseStatement fuel (parserAt (t :: ts) errors) = some (p1, stmt)) ∧
      nextToken p1 = parserAt left errors1 := by
  by_cases hl : t.Typ = .LET
  · -- a let statement
    cases ts with
    | nil =>
      refine ⟨[], _, 0, peekError (parserAt [t] errors) .IDENT, some (.Let none),
        Nat.le_refl _, ?_, nextToken_peekError _ _ _ _⟩
      intro fuel _
      simp [parseStatement, parseLetStatement, expectPeek, parserAt, hl, eofToken]
    | cons i ts1 =>
      by_cases hi : i.Typ = .IDENT
      · cases ts1 with
        | nil =>
          refine ⟨[], _, 0, peekError (parserAt [i] errors) .ASSIGN, some (.Let none),
            by simp, ?_, nextToken_peekError _ _ _ _⟩
          intro fuel _
          simp [parseStatement, parseLetStatement, expectPeek, currToken_parserAt_cons,
            peekToken_parserAt_cons, hl, hi, nextToken_parserAt_cons]
          simp [parserAt, eofToken]
        | cons a ts2 =>
          by_cases ha : a.Typ = .ASSIGN
          · have hsemi := hfbs.2 hl hi a ts2 rfl ha
            obtain ⟨body, semi, rest, hsplit, hbody, hs⟩ := exists_first_semicolon ts2 hsemi
            subst hsplit
            have hskip : ∀ fuel, body.length + 2 ≤ fuel →
                skipToSemicolon fuel (parserAt (a :: (body ++ semi :: rest)) errors)
                  = some (parserAt (semi :: rest) errors) := by
              intro fuel hfuel
              have := skipToSemicolon_found semi rest errors hs (a :: body) fuel
                (by
                  intro x hx
                  rcases List.mem_cons.mp hx with h | h
                  · rw [h, ha]; decide
                  · exact hbody x h)
                (by simp; omega)
              simpa using this
            refine ⟨rest, errors, body.length + 2, parserAt (semi :: rest) errors,
              some (.Let (some { Token := t, Name := some { Token := i, Value := i.Literal } })),
              by simp; omega, ?_, nextToken_parserAt_cons _ _ _⟩
            intro fuel hfuel
            simp [parseStatement, parseLetStatement, expectPeek, currToken_parserAt_cons,
              peekToken_parserAt_cons, hl, hi, ha, nextToken_parserAt_cons, hskip fuel hfuel]
          · refine ⟨a :: ts2, _, 0,
              peekError (parserAt (i :: a :: ts2) errors) .ASSIGN, some (.Let none), by simp,
              ?_, nextToken_peekError _ _ _ _⟩
            intro fuel _
            simp [parseStatement, parseLetStatement, expectPeek, currToken_parserAt_cons,
              peekToken_parserAt_cons, hl, hi, ha, nextToken_parserAt_cons]
      · refine ⟨i :: ts1, _, 0,
          peekError (parserAt (t :: i :: ts1) errors) .IDENT, some (.Let none), Nat.le_refl _,
          ?_, nextToken_peekError _ _ _ _⟩
        intro fuel _
        simp [parseStatement, parseLetStatement, expectPeek, currToken_parserAt_cons,
          peekToken_parserAt_cons, hl, hi]
  · by_cases hr : t.Typ = .RETURN
    · -- a return statement
      obtain ⟨x, hx, hxs⟩ := hfbs.1 hr
      have hmem : ∃ y ∈ ts, y.Typ = .SEMICOLON := by
        cases ts with
        | nil =>
          simp [upcoming, parserAt] at hx
          rw [hx] at hxs
          exact absurd hxs eofToken_ne_SEMICOLON
        | cons u us => exact ⟨x, by simpa [upcoming, parserAt] using hx, hxs⟩
      obtain ⟨body, semi, rest, hsplit, hbody, hs⟩ := exists_first_semicolon ts hmem
      subst hsplit
      refine ⟨rest, errors, body.length + 1, parserAt (semi :: rest) errors,
        some (.Return (some { Token := t })), by simp; omega, ?_, nextToken_parserAt_cons _ _ _⟩
      intro fuel hfuel
      have hskip := skipToSemicolon_found semi rest errors hs body fuel hbody hfuel
      simp [parseStatement, parseReturnStatement, currToken_parserAt_cons, hl, hr,
        nextToken_parserAt_cons, hskip]
    · -- any other token
      refine ⟨ts, errors, 0, parserAt (t :: ts) errors, none, Nat.le_refl _, ?_,
        nextToken_parserAt_cons _ _ _⟩
      intro fuel _
      simp [parseStatement, currToken_parserAt_cons, hl, hr]

theorem parseLoop_parserAt_nil (errors : List ErrorString) (acc : List Statement)
    (fuel : Nat) :
    parseLoop (fuel + 1) (parserAt [] errors) acc = some (parserAt [] errors, acc) := by
  simp [parseLoop, parserAt, eofToken]

/-- The loop of `ParseProgram` comes to its end from a stream on which every
`return` and every `let IDENT =` that it comes to is followed by a semicolon. -/
theorem parseLoop_halts (n : Nat) :
    ∀ (toks : List Token) (errors : List ErrorString), toks.length ≤ n →
      (∀ p, Dispatches (parserAt toks errors) p → FollowedBySemicolon p) →
      ∃ N, ∀ fuel, N ≤ fuel → ∀ acc, (parseLoop fuel (parserAt toks errors) acc).isSome := by
  induction n with
  | zero =>
    intro toks errors hlen _
    have hnil : toks = [] := List.length_eq_zero.mp (Nat.le_zero.mp hlen)
    subst hnil
    refine ⟨1, fun fuel hfuel acc => ?_⟩
    obtain ⟨m, hm⟩ : ∃ m, fuel = m + 1 := ⟨fuel - 1, by omega⟩
    subst hm
    rw [parseLoop_parserAt_nil]
    rfl
  | succ n ih =>
    intro toks errors hlen hall
    cases toks with
    | nil =>
      refine ⟨1, fun fuel hfuel acc => ?_⟩
      obtain ⟨m, hm⟩ : ∃ m, fuel = m + 1 := ⟨fuel - 1, by omega⟩
      subst hm
      rw [parseLoop_parserAt_nil]
      rfl
    | cons t ts =>
      by_cases heof : t.Typ = .EOF
      · refine ⟨1, fun fuel hfuel acc => ?_⟩
        obtain ⟨m, hm⟩ : ∃ m, fuel = m + 1 := ⟨fuel - 1, by omega⟩
        subst hm
        rw [parseLoop_eof t ts errors acc m heof]
        rfl
      · obtain ⟨left, errors1, N1, p1, stmt, hleft, hst, hnext⟩ :=
          parseStatement_parserAt t ts errors (hall _ Dispatches.start)
        have hd : Dispatches (parserAt (t :: ts) errors) (parserAt left errors1) := by
          rw [← hnext]
          exact Dispatches.next _ p1 stmt N1 Dispatches.start
            (by rw [currToken_parserAt_cons]; exact heof) (hst N1 (Nat.le_refl _))
        obtain ⟨N2, hN2⟩ := ih left errors1 (by simp at hlen; omega)
          (fun p hp => hall p (dispatches_trans hd hp))
        refine ⟨max N1 N2 + 1, fun fuel hfuel acc => ?_⟩
        obtain ⟨m, hm⟩ : ∃ m, fuel = m + 1 := ⟨fuel - 1, by omega⟩
        subst hm
        have hm1 : N1 ≤ m := by omega
        have hm2 : N2 ≤ m := by omega
        have hcur : (parserAt (t :: ts) errors).currToken.Typ ≠ .EOF := by
          rw [currToken_parserAt_cons]; exact heof
        simp only [parseLoop, hcur, ne_eq, not_false_eq_true, if_true, hst m hm1]
        cases stmt with
        | none =>
          simp only [hnext]
          exact hN2 m hm2 _
        | some st =>
          simp only [hnext]
          exact hN2 m hm2 _

theorem ParseProgram_isSome (fuel : Nat) (p : Parser) :
    (ParseProgram fuel p).isSome = (parseLoop fuel p []).isSome := by
  unfold ParseProgram
  cases parseLoop fuel p [] with
  | none => rfl
  | some x => rfl

/-- C24: with a lexer that yields the tokens of a finite list and then `EOF`
for ever, `ParseProgram` comes to an end (some bound on its loops is enough for
it to return) if and only if, in every state in which its loop tests its
condition, a `return` that is the current token and a `let IDENT =` that starts
at the current token are followed by a semicolon before the end of input.  For
the input `let x = 5` no bound is enough: the loop that skips to the semicolon
does not come to an end. -/
theorem ParseProgram_terminates_iff (toks : List Token) :
    ((∃ fuel, (ParseProgram fuel (New ⟨toks⟩)).isSome) ↔
      ∀ p, Dispatches (New ⟨toks⟩) p → FollowedBySemicolon p) ∧
    ((∀ p, Dispatches (New ⟨toks⟩) p → FollowedBySemicolon p) →
      ∃ N, ∀ fuel, N ≤ fuel → (ParseProgram fuel (New ⟨toks⟩)).isSome) ∧
    (∀ fuel, ParseProgram fuel (New ⟨[⟨.LET, "let"⟩, ⟨.IDENT, "x"⟩, ⟨.ASSIGN, "="⟩,
      ⟨.OTHER "INT", "5"⟩]⟩) = none) ∧
    (∀ fuel, skipToSemicolon fuel
      (nextToken (nextToken (New ⟨[⟨.LET, "let"⟩, ⟨.IDENT, "x"⟩, ⟨.ASSIGN, "="⟩,
        ⟨.OTHER "INT", "5"⟩]⟩))) = none) := by
  have hback : (∀ p, Dispatches (New ⟨toks⟩) p → FollowedBySemicolon p) →
      ∃ N, ∀ fuel, N ≤ fuel → (ParseProgram fuel (New ⟨toks⟩)).isSome := by
    intro hall
    rw [New_eq_parserAt] at hall
    obtain ⟨N, hN⟩ := parseLoop_halts toks.length toks [] (Nat.le_refl _) hall
    refine ⟨N, fun fuel hfuel => ?_⟩
    rw [ParseProgram_isSome, New_eq_parserAt]
    exact hN fuel hfuel []
  refine ⟨⟨?_, ?_⟩, hback, ?_, ?_⟩
  · rintro ⟨fuel, hfuel⟩ p hp
    rw [ParseProgram_isSome] at hfuel
    obtain ⟨F, acc, hF⟩ := parseLoop_some_of_dispatches _ p hp ⟨fuel, [], hfuel⟩
    exact parseLoop_some_followed F p acc hF
  · intro hall
    obtain ⟨N, hN⟩ := hback hall
    exact ⟨N, hN N (Nat.le_refl _)⟩
  · intro fuel
    cases h : ParseProgram fuel (New ⟨[⟨.LET, "let"⟩, ⟨.IDENT, "x"⟩, ⟨.ASSIGN, "="⟩,
      ⟨.OTHER "INT", "5"⟩]⟩) with
    | none => rfl
    | some r =>
      exfalso
      have hsome : (parseLoop fuel (New ⟨[⟨.LET, "let"⟩, ⟨.IDENT, "x"⟩, ⟨.ASSIGN, "="⟩,
          ⟨.OTHER "INT", "5"⟩]⟩) []).isSome := by
        rw [← ParseProgram_isSome, h]; rfl
      obtain ⟨t, ht, hsemi⟩ := (parseLoop_some_followed fuel _ [] hsome).2 rfl rfl
        ⟨.ASSIGN, "="⟩ [⟨.OTHER "INT", "5"⟩] rfl rfl
      simp only [List.mem_singleton] at ht
      rw [ht] at hsemi
      exact absurd hsemi (by decide)
  · intro fuel
    cases h : skipToSemicolon fuel
      (nextToken (nextToken (New ⟨[⟨.LET, "let"⟩, ⟨.IDENT, "x"⟩, ⟨.ASSIGN, "="⟩,
        ⟨.OTHER "INT", "5"⟩]⟩))) with
    | none => rfl
    | some r =>
      exfalso
      obtain ⟨t, ht, hsemi⟩ := skipToSemicolon_some_mem fuel _ r h
      have hcases : t = ⟨.ASSIGN, "="⟩ ∨ t = ⟨.OTHER "INT", "5"⟩ := by
        simpa [upcoming, New, nextToken, Lexer.NextToken] using ht
      rcases hcases with h1 | h1 <;> rw [h1] at hsemi <;> exact absurd hsemi (by decide)

/-- The input `return 5 ;` makes the parser come to an end, and the `return`
that it starts with is followed by a semicolon. -/
theorem ParseProgram_terminates_iff_witness :
    (∃ fuel, (ParseProgram fuel (New ⟨[⟨.RETURN, "return"⟩, ⟨.OTHER "INT", "5"⟩,
      ⟨.SEMICOLON, ";"⟩]⟩)).isSome) ∧
    FollowedBySemicolon (New ⟨[⟨.RETURN, "return"⟩, ⟨.OTHER "INT", "5"⟩,
      ⟨.SEMICOLON, ";"⟩]⟩) :=
  ⟨⟨4, rfl⟩,
   (ParseProgram_terminates_iff [⟨.RETURN, "return"⟩, ⟨.OTHER "INT", "5"⟩,
      ⟨.SEMICOLON, ";"⟩]).1.mp ⟨4, rfl⟩ _ Dispatches.start⟩

end parser
